import Mathlib

/-!
Verification of the `pkgbump` version-bump pipeline (`src/main.rs`) against its
specification.  The Rust program is shallowly embedded: pure text manipulation
becomes functions on `String`/`List Char`, the streaming fetch loop becomes a
function over a list of read events, and the orchestrator `run` becomes a
function of oracles describing the external world (filesystem, child process,
HTTP), returning an outcome together with the trace of externally visible
effects.
-/

namespace Pkgbump

/-!
  ## The `Pkgbuild` buffer (src/main.rs lines 23-51)

The Rust struct holds the PKGBUILD text and the compiled regex
`(.+)=(\([^\)]+\)|.+)` (default flags: `.` matches any character except
newline; there is no anchoring and no multi-line mode).  `Pkgbuild::set` runs
`Regex::replace_all`, rewriting every match `g1=g2` as `g1=v` when `g1` equals
the requested key, and reproducing `g1=g2` byte-identically otherwise.

The model reproduces the regex crate's leftmost-first semantics for this
pattern:
* `(.+)` is greedy, so among the indices of the current line at which `=`
  occurs and a value can match after it, the rightmost one is chosen as the
  separator; the key is everything from the match start up to that separator
  (and may itself contain `=`);
* the value alternation prefers the branch `\([^\)]+\)` — a parenthesized
  block with a non-empty inside and no `)` inside, ending at the first `)`,
  which may span newlines because `[^\)]` matches `\n` — and otherwise takes
  `.+`, the non-empty remainder of the current line;
* `replace_all` scans left to right and resumes after each match, so a match
  begins at the earliest position where one is possible.
-/

/-- The longest newline-free prefix: the span that `.` can cover. -/
def lineOf (l : List Char) : List Char := l.takeWhile (· ≠ '\n')

/-- Split a character list at the first `')'`:
`splitAtClose t = some (inner, rest)` iff `t = inner ++ ')' :: rest` with
`')' ∉ inner`. -/
def splitAtClose : List Char → Option (List Char × List Char)
  | [] => none
  | c :: t =>
    if c = ')' then some ([], t)
    else (splitAtClose t).map fun p => (c :: p.1, p.2)

/-- The `.+` branch of the value: the non-empty remainder of the current
line. -/
def tokenValue (l : List Char) : Option (List Char × List Char) :=
  if lineOf l = [] then none else some (lineOf l, l.dropWhile (· ≠ '\n'))

/-- The value alternation `(\([^\)]+\)|.+)`: try the parenthesized branch
first, then fall back to `.+`. -/
def matchValue : List Char → Option (List Char × List Char)
  | [] => none
  | c :: t =>
    if c = '(' then
      match splitAtClose t with
      | some (inner, rest) =>
        if inner = [] then tokenValue (c :: t) else some (c :: inner ++ [')'], rest)
      | none => tokenValue (c :: t)
    else tokenValue (c :: t)

/-- Try to match the whole pattern at the start of `l` with the separator `=`
at index `j` of the current line: the key is `(lineOf l).take j` and the value
is matched at `l.drop (j+1)`. -/
def entryAtSep (l : List Char) (j : Nat) : Option (List Char × List Char × List Char) :=
  if h : j < (lineOf l).length then
    if 1 ≤ j ∧ (lineOf l)[j] = '=' then
      match matchValue (l.drop (j + 1)) with
      | some (v, rest) => some ((lineOf l).take j, v, rest)
      | none => none
    else none
  else none

/-- Greedy separator search: separator indices are tried from the right. -/
def findEntry (l : List Char) : Nat → Option (List Char × List Char × List Char)
  | 0 => none
  | j + 1 =>
    match entryAtSep l (j + 1) with
    | some e => some e
    | none => findEntry l j

/-- The match of `(.+)=(\([^\)]+\)|.+)` starting at the head of `l`, if any:
`some (key, value, rest)`. -/
def matchEntryAt (l : List Char) : Option (List Char × List Char × List Char) :=
  findEntry l (lineOf l).length

/-- `Regex::replace_all` with the replacement closure of `Pkgbuild::set`
(src/main.rs lines 37-44): every match `g1=g2` becomes `g1=v` when `g1 = k`
and is reproduced byte-identically otherwise; text between matches is copied
verbatim.  `fuel` is an upper bound on recursion depth; any `fuel ≥ l.length`
gives the same result (`applySetAux_fuel`). -/
def applySetAux (k v : List Char) : Nat → List Char → List Char
  | 0, l => l
  | _ + 1, [] => []
  | fuel + 1, c :: t =>
    match matchEntryAt (c :: t) with
    | some (g1, g2, rest) =>
      g1 ++ '=' :: (if g1 = k then v else g2) ++ applySetAux k v fuel rest
    | none => c :: applySetAux k v fuel t

/-- `Pkgbuild::set` as a function on the buffer text. -/
def pkgbuildSet (text k v : String) : String :=
  ⟨applySetAux k.toList v.toList text.toList.length text.toList⟩

/-- The keys recognized by successive matches of the pattern, in order:
what `replace_all` would offer to the replacement closure. -/
def scanKeysAux : Nat → List Char → List (List Char)
  | 0, _ => []
  | _ + 1, [] => []
  | fuel + 1, c :: t =>
    match matchEntryAt (c :: t) with
    | some (g1, _, rest) => g1 :: scanKeysAux fuel rest
    | none => scanKeysAux fuel t

/-- The recognized keys of a buffer. -/
def scanKeys (text : String) : List (List Char) :=
  scanKeysAux text.toList.length text.toList

/-! ### Structural facts about the matcher -/

theorem splitAtClose_eq {t inner rest : List Char}
    (h : splitAtClose t = some (inner, rest)) :
    t = inner ++ ')' :: rest ∧ ')' ∉ inner := by
  induction t generalizing inner rest with
  | nil => simp [splitAtClose] at h
  | cons c t ih =>
    simp only [splitAtClose] at h
    by_cases hc : c = ')'
    · rw [if_pos hc] at h
      injection h with h
      injection h with h1 h2
      subst h1; subst h2
      simp [hc]
    · rw [if_neg hc] at h
      cases hs : splitAtClose t with
      | none => rw [hs] at h; simp at h
      | some p =>
        obtain ⟨i2, r2⟩ := p
        rw [hs] at h
        simp at h
        obtain ⟨h1, h2⟩ := h
        subst h1; subst h2
        obtain ⟨rfl, hni⟩ := ih hs
        refine ⟨by simp, ?_⟩
        intro hmem
        rcases List.mem_cons.mp hmem with h | h
        · exact hc h.symm
        · exact hni h

theorem lineOf_no_newline {l : List Char} : '\n' ∉ lineOf l := by
  intro h
  have := List.mem_takeWhile_imp h
  simp at this

theorem tokenValue_eq {l v rest : List Char}
    (h : tokenValue l = some (v, rest)) :
    l = v ++ rest ∧ v ≠ [] ∧ '\n' ∉ v := by
  unfold tokenValue at h
  by_cases h0 : lineOf l = []
  · rw [if_pos h0] at h; exact absurd h (by simp)
  · rw [if_neg h0] at h
    injection h with h
    injection h with h1 h2
    subst h1; subst h2
    refine ⟨?_, h0, lineOf_no_newline⟩
    exact (List.takeWhile_append_dropWhile _ _).symm

theorem matchValue_eq {l v rest : List Char}
    (h : matchValue l = some (v, rest)) :
    l = v ++ rest ∧ v ≠ [] := by
  cases l with
  | nil => simp [matchValue] at h
  | cons c t =>
    simp only [matchValue] at h
    by_cases hc : c = '('
    · rw [if_pos hc] at h
      split at h
      next inner r hs =>
        by_cases hi : inner = []
        · rw [if_pos hi] at h
          have := tokenValue_eq h
          exact ⟨this.1, this.2.1⟩
        · rw [if_neg hi] at h
          injection h with h
          injection h with h1 h2
          subst h1; subst h2
          obtain ⟨rfl, -⟩ := splitAtClose_eq hs
          simp [hc]
      next hs =>
        have := tokenValue_eq h
        exact ⟨this.1, this.2.1⟩
    · rw [if_neg hc] at h
      have := tokenValue_eq h
      exact ⟨this.1, this.2.1⟩

theorem lineOf_prefix (l : List Char) : ∃ s, l = lineOf l ++ s :=
  ⟨l.dropWhile (· ≠ '\n'), (List.takeWhile_append_dropWhile _ _).symm⟩

theorem lineOf_decomp {l : List Char} {j : Nat} (hj : j < (lineOf l).length)
    (hc : (lineOf l)[j] = '=') :
    l = (lineOf l).take j ++ '=' :: l.drop (j + 1) := by
  obtain ⟨s, hs⟩ := lineOf_prefix l
  have hlen : (lineOf l).length ≤ l.length := by
    conv_rhs => rw [hs]
    simp
  have hjl : j < l.length := by omega
  have htake : l.take j = (lineOf l).take j := by
    conv_lhs => rw [hs]
    exact List.take_append_of_le_length (by omega)
  have hget : l[j] = '=' := by
    rw [← hc]
    rw [List.getElem_of_eq hs hjl]
    exact List.getElem_append_left hj
  conv_lhs => rw [← List.take_append_drop j l]
  rw [htake, List.drop_eq_getElem_cons hjl, hget]

theorem entryAtSep_spec {l : List Char} {j : Nat} {g1 g2 rest : List Char}
    (h : entryAtSep l j = some (g1, g2, rest)) :
    ∃ hj : j < (lineOf l).length,
      1 ≤ j ∧ (lineOf l)[j] = '=' ∧
      matchValue (l.drop (j + 1)) = some (g2, rest) ∧ g1 = (lineOf l).take j := by
  unfold entryAtSep at h
  split at h
  next hj =>
    split at h
    next hcond =>
      refine ⟨hj, hcond.1, hcond.2, ?_⟩
      split at h
      next hv =>
        injection h with h
        injection h with h1 h
        injection h with h2 h3
        subst h1; subst h2; subst h3
        exact ⟨hv, rfl⟩
      next => exact absurd h (by simp)
    next => exact absurd h (by simp)
  next => exact absurd h (by simp)

theorem entryAtSep_decomp {l : List Char} {j : Nat} {g1 g2 rest : List Char}
    (h : entryAtSep l j = some (g1, g2, rest)) :
    l = g1 ++ '=' :: (g2 ++ rest) ∧ g1 ≠ [] ∧ g2 ≠ [] ∧ '\n' ∉ g1 := by
  obtain ⟨hj, hj1, heq, hv, hg1⟩ := entryAtSep_spec h
  obtain ⟨hval, hvne⟩ := matchValue_eq hv
  refine ⟨?_, ?_, hvne, ?_⟩
  · rw [hg1, ← hval]
    exact lineOf_decomp hj heq
  · rw [hg1]
    intro hnil
    have := congrArg List.length hnil
    rw [List.length_take] at this
    simp only [List.length_nil] at this
    omega
  · rw [hg1]
    intro hmem
    exact lineOf_no_newline (List.mem_of_mem_take hmem)

theorem findEntry_some {l : List Char} {n : Nat} {e : List Char × List Char × List Char}
    (h : findEntry l n = some e) :
    ∃ j, 1 ≤ j ∧ j ≤ n ∧ entryAtSep l j = some e ∧
      ∀ j', j < j' → j' ≤ n → entryAtSep l j' = none := by
  induction n with
  | zero => simp [findEntry] at h
  | succ n ih =>
    simp only [findEntry] at h
    cases he : entryAtSep l (n + 1) with
    | some e' =>
      rw [he] at h
      injection h with h
      subst h
      obtain ⟨hj, -, -, -, -⟩ := entryAtSep_spec he
      refine ⟨n + 1, ?_, le_refl _, he, ?_⟩
      · obtain ⟨-, h1, -⟩ := entryAtSep_spec he
        omega
      · intro j' hlt hle
        omega
    | none =>
      rw [he] at h
      obtain ⟨j, hj1, hjn, hsome, hnone⟩ := ih h
      refine ⟨j, hj1, Nat.le_succ_of_le hjn, hsome, ?_⟩
      intro j' hlt hle
      rcases Nat.lt_or_ge j' (n + 1) with hlt' | hge
      · exact hnone j' hlt (by omega)
      · have : j' = n + 1 := by omega
        rw [this]
        exact he

theorem matchEntryAt_decomp {l : List Char} {g1 g2 rest : List Char}
    (h : matchEntryAt l = some (g1, g2, rest)) :
    l = g1 ++ '=' :: (g2 ++ rest) ∧ g1 ≠ [] ∧ g2 ≠ [] ∧ '\n' ∉ g1 := by
  obtain ⟨j, -, -, hsome, -⟩ := findEntry_some h
  exact entryAtSep_decomp hsome

theorem matchEntryAt_rest_lt {l : List Char} {g1 g2 rest : List Char}
    (h : matchEntryAt l = some (g1, g2, rest)) :
    rest.length + 3 ≤ l.length := by
  obtain ⟨hdec, h1, h2, -⟩ := matchEntryAt_decomp h
  rw [hdec]
  simp only [List.length_append, List.length_cons]
  have : 1 ≤ g1.length := List.length_pos.mpr h1
  have : 1 ≤ g2.length := List.length_pos.mpr h2
  omega

theorem applySetAux_cons (k v : List Char) (fuel : Nat) (c : Char) (t : List Char) :
    applySetAux k v (fuel + 1) (c :: t) =
      match matchEntryAt (c :: t) with
      | some (g1, g2, rest) =>
        g1 ++ '=' :: (if g1 = k then v else g2) ++ applySetAux k v fuel rest
      | none => c :: applySetAux k v fuel t := rfl

theorem scanKeysAux_cons (fuel : Nat) (c : Char) (t : List Char) :
    scanKeysAux (fuel + 1) (c :: t) =
      match matchEntryAt (c :: t) with
      | some (g1, _, rest) => g1 :: scanKeysAux fuel rest
      | none => scanKeysAux fuel t := rfl

theorem applySetAux_fuel (k v : List Char) :
    ∀ f1 f2 l, l.length ≤ f1 → l.length ≤ f2 →
      applySetAux k v f1 l = applySetAux k v f2 l := by
  intro f1
  induction f1 with
  | zero =>
    intro f2 l h1 h2
    have : l = [] := List.length_eq_zero.mp (by omega)
    subst this
    cases f2 <;> rfl
  | succ f1 ih =>
    intro f2 l h1 h2
    cases l with
    | nil => cases f2 <;> rfl
    | cons c t =>
      have hf2 : ∃ f2', f2 = f2' + 1 := by
        cases f2
        · simp at h2
        · exact ⟨_, rfl⟩
      obtain ⟨f2', rfl⟩ := hf2
      cases hm : matchEntryAt (c :: t) with
      | some e =>
        obtain ⟨g1, g2, rest⟩ := e
        have hlt := matchEntryAt_rest_lt hm
        simp only [List.length_cons] at h1 h2 hlt
        rw [applySetAux_cons, applySetAux_cons, hm]
        show g1 ++ '=' :: (if g1 = k then v else g2) ++ applySetAux k v f1 rest
           = g1 ++ '=' :: (if g1 = k then v else g2) ++ applySetAux k v f2' rest
        rw [ih f2' rest (by omega) (by omega)]
      | none =>
        simp only [List.length_cons] at h1 h2
        rw [applySetAux_cons, applySetAux_cons, hm]
        show c :: applySetAux k v f1 t = c :: applySetAux k v f2' t
        rw [ih f2' t (by omega) (by omega)]

theorem scanKeysAux_fuel :
    ∀ f1 f2 l, l.length ≤ f1 → l.length ≤ f2 →
      scanKeysAux f1 l = scanKeysAux f2 l := by
  intro f1
  induction f1 with
  | zero =>
    intro f2 l h1 h2
    have : l = [] := List.length_eq_zero.mp (by omega)
    subst this
    cases f2 <;> rfl
  | succ f1 ih =>
    intro f2 l h1 h2
    cases l with
    | nil => cases f2 <;> rfl
    | cons c t =>
      have hf2 : ∃ f2', f2 = f2' + 1 := by
        cases f2
        · simp at h2
        · exact ⟨_, rfl⟩
      obtain ⟨f2', rfl⟩ := hf2
      cases hm : matchEntryAt (c :: t) with
      | some e =>
        obtain ⟨g1, g2, rest⟩ := e
        have hlt := matchEntryAt_rest_lt hm
        simp only [List.length_cons] at h1 h2 hlt
        rw [scanKeysAux_cons, scanKeysAux_cons, hm]
        show g1 :: scanKeysAux f1 rest = g1 :: scanKeysAux f2' rest
        rw [ih f2' rest (by omega) (by omega)]
      | none =>
        simp only [List.length_cons] at h1 h2
        rw [scanKeysAux_cons, scanKeysAux_cons, hm]
        show scanKeysAux f1 t = scanKeysAux f2' t
        exact ih f2' t (by omega) (by omega)

/-!
  ## Rendering of the checksum fields (src/main.rs lines 147-156)

The orchestrator builds, for each hash name `A`, the key `Asums` and the value

    format!("('{}')", hashes.join(&format!("'\n{}  '", " ".repeat(hashsum.len()))))

i.e. the digests joined by `'`, newline, `len("Asums")` spaces, two further
spaces, `'`, all wrapped in `('` … `')`.
-/

/-- `" ".repeat(n)`. -/
def spacesOf (n : Nat) : String := ⟨List.replicate n ' '⟩

/-- The join separator `format!("'\n{}  '", " ".repeat(hashsum.len()))`. -/
def sumsSep (hashsum : String) : String := "'\n" ++ spacesOf hashsum.length ++ "  '"

/-- The value the orchestrator passes to `Pkgbuild::set` for the key
`hashName ++ "sums"`, given the per-source digest strings `ds`. -/
def renderSums (hashName : String) (ds : List String) : String :=
  "('" ++ String.intercalate (sumsSep (hashName ++ "sums")) ds ++ "')"

/-- The rendering described by claim C2 taken literally: each entry after the
first preceded by an indent of width exactly `len("Asums")`. -/
def renderSumsClaimC2 (hashName : String) (ds : List String) : String :=
  "('" ++ String.intercalate ("'\n" ++ spacesOf (hashName ++ "sums").length ++ "'") ds ++ "')"

/-- The rendering with each entry after the first preceded by an indent of
width `len("Asums") + 2`, which places its opening quote directly under the
opening quote of the first entry (that quote sits after `Asums=(`). -/
def renderSumsAligned (hashName : String) (ds : List String) : String :=
  "('" ++ String.intercalate ("'\n" ++ spacesOf ((hashName ++ "sums").length + 2) ++ "'") ds ++ "')"

theorem sumsSep_aligned (h : String) :
    sumsSep h = "'\n" ++ spacesOf (h.length + 2) ++ "'" := by
  apply String.ext
  simp only [sumsSep, spacesOf, String.data_append]
  show "'\n".data ++ (List.replicate h.length ' ' ++ "  '".data)
     = "'\n".data ++ (List.replicate (h.length + 2) ' ' ++ "'".data)
  have h1 : "  '".data = ' ' :: ' ' :: "'".data := rfl
  rw [h1, List.replicate_add]
  simp

/-!
  ## The streaming fetch-and-hash loop (src/main.rs lines 125-145)

Per source, the code creates the file, then loops reading into an 8 KiB
buffer: `Ok(0)` breaks the loop, `Ok(len)` writes the read slice to the file
and feeds the same slice to every digest, `Err` of kind `Interrupted`
retries, and any other `Err` aborts `run`.  The loop is modelled over a list
of read events; each digest engine is represented by the list of bytes it has
absorbed since its last reset.
-/

/-- One result of `response.read(&mut buf)`, together with the write that
follows it: `chunk []` is `Ok(0)` (end of stream), `chunk bs` with `bs ≠ []`
is `Ok(len)` returning the bytes `bs`, `interrupted` is
`Err(kind = Interrupted)`, and `fail msg` is any other read or write error. -/
inductive ReadEvent where
  | chunk (bs : List Nat)
  | interrupted
  | fail (msg : String)
deriving DecidableEq, Repr

/-- Outcome of the read loop for one source. -/
inductive StreamOut where
  | clean (file : List Nat) (accs : List (List Nat))
  | failed (msg : String)
  | stuck
deriving DecidableEq, Repr

/-- The read loop: `file` is the byte content written so far, `accs` the bytes
absorbed so far by each digest engine (one entry per engine, in order).
An exhausted event list without a terminating `chunk []` is `stuck` (a real
reader always eventually returns; theorems about clean runs never hit it). -/
def streamLoop : List ReadEvent → List Nat → List (List Nat) → StreamOut
  | [], _, _ => .stuck
  | .chunk [] :: _, file, accs => .clean file accs
  | .chunk bs :: es, file, accs => streamLoop es (file ++ bs) (accs.map (· ++ bs))
  | .interrupted :: es, file, accs => streamLoop es file accs
  | .fail m :: _, _, _ => .failed m

/-- The body of a stream that terminates cleanly: the concatenation of the
chunks before the first `chunk []`. -/
def bodyBytes : List ReadEvent → Option (List Nat)
  | [] => none
  | .chunk [] :: _ => some []
  | .chunk bs :: es => (bodyBytes es).map (bs ++ ·)
  | .interrupted :: es => bodyBytes es
  | .fail _ :: _ => none

/-- Read events that are not transient interruptions. -/
def dropInterrupts (es : List ReadEvent) : List ReadEvent :=
  es.filter fun e => e ≠ ReadEvent.interrupted

theorem streamLoop_clean {es : List ReadEvent} {file₀ : List Nat}
    {accs₀ : List (List Nat)} {file : List Nat} {accs : List (List Nat)}
    (h : streamLoop es file₀ accs₀ = .clean file accs) :
    ∃ body, bodyBytes es = some body ∧ file = file₀ ++ body ∧
      accs = accs₀.map (· ++ body) := by
  induction es generalizing file₀ accs₀ with
  | nil => simp [streamLoop] at h
  | cons e es ih =>
    cases e with
    | chunk bs =>
      cases bs with
      | nil =>
        simp only [streamLoop] at h
        injection h with h1 h2
        subst h1; subst h2
        exact ⟨[], rfl, by simp, by
          refine List.ext_getElem (by simp) ?_
          intro i hi hi2
          simp⟩
      | cons b bs =>
        simp only [streamLoop] at h
        obtain ⟨body, hb, hf, ha⟩ := ih h
        refine ⟨(b :: bs) ++ body, ?_, ?_, ?_⟩
        · simp [bodyBytes, hb]
        · rw [hf]; simp
        · rw [ha]
          simp only [List.map_map]
          refine List.map_congr_left ?_
          intro a _
          simp
    | interrupted =>
      simp only [streamLoop] at h
      obtain ⟨body, hb, hf, ha⟩ := ih h
      exact ⟨body, by simpa [bodyBytes] using hb, hf, ha⟩
    | fail m => simp [streamLoop] at h

theorem streamLoop_drop_interrupts (es : List ReadEvent) :
    ∀ file accs, streamLoop (dropInterrupts es) file accs = streamLoop es file accs := by
  induction es with
  | nil => intro file accs; rfl
  | cons e es ih =>
    intro file accs
    cases e with
    | chunk bs =>
      simp only [dropInterrupts, List.filter_cons] at ih ⊢
      rw [if_pos (by simp)]
      cases bs with
      | nil => rfl
      | cons b bs =>
        simp only [streamLoop]
        exact ih _ _
    | interrupted =>
      simp only [dropInterrupts, List.filter_cons] at ih ⊢
      rw [if_neg (by simp)]
      show _ = streamLoop es file accs
      exact ih _ _
    | fail m =>
      simp only [dropInterrupts, List.filter_cons] at ih ⊢
      rw [if_pos (by simp)]
      rfl

/-!
  ## Metadata and the digest factory (src/main.rs lines 53-81)
-/

structure Source where
  filename : String
  url : String
deriving DecidableEq, Repr

structure Metadata where
  sources : List Source
  hashes : List String
deriving DecidableEq, Repr

/-- The hash names recognized by `Metadata::digests` (src/main.rs lines
69-76). -/
def knownAlgos : List String := ["md5", "sha1", "sha224", "sha256", "sha384", "sha512"]

/-- `Metadata::digests`: one engine per entry of `hashes`, in order; the first
name outside the recognized set hits `panic!("Unsupported hash {}", hash)`.
An engine is represented by its algorithm name (engine state lives in the
streaming loop); `Except.error` carries the panic message. -/
def buildDigests : List String → Except String (List String)
  | [] => .ok []
  | h :: t =>
    if h ∈ knownAlgos then (buildDigests t).map (h :: ·)
    else .error ("Unsupported hash " ++ h)

/-- The sixteen lowercase hexadecimal digits used by `hex::encode`: the ten
decimal digits followed by `a` through `f`. -/
def hexDigits : List Char :=
  (List.range 10).map (fun i => Char.ofNat ('0'.toNat + i)) ++
    (List.range 6).map fun i => Char.ofNat ('a'.toNat + i)

/-- One lowercase hex digit (of the value taken mod 16). -/
def hexDigitChar (n : Nat) : Char :=
  if n % 16 < 10 then Char.ofNat ('0'.toNat + n % 16)
  else Char.ofNat ('a'.toNat + (n % 16 - 10))

/-- `hex::encode` on raw digest bytes: two lowercase hex digits per byte, high
nibble first. -/
def hexEncode (bs : List Nat) : String :=
  ⟨bs.flatMap fun b => [hexDigitChar (b / 16), hexDigitChar (b % 16)]⟩

theorem hexDigitChar_mem (n : Nat) : hexDigitChar n ∈ hexDigits := by
  have h : n % 16 < 16 := Nat.mod_lt _ (by norm_num)
  unfold hexDigitChar
  generalize hm : n % 16 = m at h ⊢
  interval_cases m <;> decide

theorem hexEncode_lower (bs : List Nat) :
    ∀ c ∈ (hexEncode bs).data, c ∈ hexDigits := by
  intro c hc
  simp only [hexEncode, List.mem_flatMap] at hc
  obtain ⟨b, -, hc⟩ := hc
  rcases List.mem_cons.mp hc with rfl | hc
  · exact hexDigitChar_mem _
  · rcases List.mem_cons.mp hc with rfl | hc
    · exact hexDigitChar_mem _
    · simp at hc

/-!
  ## The orchestrator `run` and `main` (src/main.rs lines 83-173)

`run` is modelled as a function of the program's interactions with the
outside world, collected in oracles: the result of reading `PKGBUILD`, of
materializing the temporary helper script, of spawning `bash`, writing the
recipe to its stdin and waiting for it, the `serde_json::from_slice` parse of
the child's captured standard output (an external crate, modelled as the
oracle value `Option Metadata`), the per-source HTTP and file-creation
results and read events, and the hash implementations (`Md5`, `Sha1`, …,
external crates, modelled as an oracle `String → List Nat → List Nat` from
algorithm name and absorbed bytes to raw digest bytes).

Failures come in two kinds, mirroring the code: `io` failures propagate as
`Err(e)` out of `run`, and `main` prints `Error: {e}` to stderr and exits
with code 1; `pan` failures are panics (`unwrap`, `panic!`), which abort the
process with the runtime's panic report on stderr and exit code 101. -/

/-- The result of spawn + stdin write + `wait_with_output` when they succeed:
the child's exit status and the parse of its captured standard output.  The
code never reads the exit status, and the child's stderr is inherited rather
than captured. -/
structure ChildOut where
  statusOk : Bool
  stdoutMeta : Option Metadata

/-- Oracles for the non-source interactions of one run. -/
structure RunOracle where
  recipeText : Except String String
  tempFile : Except String Unit
  spawn : Except String Unit
  stdinWrite : Except String Unit
  waitResult : Except String ChildOut

/-- Oracles for the fetch of one source. -/
structure SourceOracle where
  http : Except String Unit
  create : Except String Unit
  events : List ReadEvent

inductive ExtractResult where
  | ok (md : Metadata)
  | ioErr (m : String)
  | panicked (m : String)
deriving DecidableEq

/-- The panic message of `serde_json::from_slice(&output.stdout).unwrap()`;
the serde error text itself is irrelevant to every claim. -/
def serdePanicMsg : String := "called Result::unwrap() on an Err value"

/-- `ExtractPkgbuild::run` (src/main.rs lines 96-109): spawn `bash` with the
helper script, pipe the recipe into stdin, `wait_with_output`, then
`serde_json::from_slice(&output.stdout).unwrap()`.  The child's exit status
is never inspected and its stderr is not captured. -/
def extractRun (o : RunOracle) : ExtractResult :=
  match o.spawn with
  | .error m => .ioErr m
  | .ok _ =>
    match o.stdinWrite with
    | .error m => .ioErr m
    | .ok _ =>
      match o.waitResult with
      | .error m => .ioErr m
      | .ok co =>
        match co.stdoutMeta with
        | some md => .ok md
        | none => .panicked serdePanicMsg

/-- Externally visible effects of a run, in order. -/
inductive Effect where
  | readRecipe
  | spawnShell
  | httpGet (url : String)
  | createFile (name : String)
deriving DecidableEq, Repr

/-- How the process ends: the final recipe printed to stdout, an `Err` from
`run`, or a panic. -/
inductive Outcome where
  | success (stdoutText : String)
  | ioError (msg : String)
  | panicked (msg : String)
deriving DecidableEq, Repr

inductive Failure where
  | io (m : String)
  | pan (m : String)
deriving DecidableEq, Repr

/-- One iteration of the source loop (src/main.rs lines 118-146):
`reqwest::get(&url).unwrap().error_for_status().unwrap()` (both failures
panic), `File::create(&filename)?` (an io error), then the read loop; on a
clean end of stream each engine is finalized with
`hex::encode(digest.result_reset())`, yielding one digest string per
algorithm; the reset leaves every engine empty for the next source. -/
def fetchOne (hashFn : String → List Nat → List Nat) (algos : List String)
    (s : Source) (so : SourceOracle) :
    Except Failure (List String) × List Effect :=
  match so.http with
  | .error m => (.error (.pan m), [.httpGet s.url])
  | .ok _ =>
    match so.create with
    | .error m => (.error (.io m), [.httpGet s.url, .createFile s.filename])
    | .ok _ =>
      match streamLoop so.events [] (List.replicate algos.length []) with
      | .clean _ accs =>
        (.ok (List.zipWith (fun a acc => hexEncode (hashFn a acc)) algos accs),
          [.httpGet s.url, .createFile s.filename])
      | .failed m => (.error (.io m), [.httpGet s.url, .createFile s.filename])
      | .stuck =>
        (.error (.io "unexpected end of stream"),
          [.httpGet s.url, .createFile s.filename])

/-- The source loop: `digest_hashes` starts as
`vec![Vec::new(); digests.len()]` and each source appends one digest string
to each row; the loop stops at the first failing source. -/
def runSources (hashFn : String → List Nat → List Nat) (algos : List String)
    (fetch : Nat → SourceOracle) :
    List Source → Nat → List (List String) →
      Except Failure (List (List String)) × List Effect
  | [], _, acc => (.ok acc, [])
  | s :: rest, i, acc =>
    match fetchOne hashFn algos s (fetch i) with
    | (.error f, tr) => (.error f, tr)
    | (.ok ds, tr) =>
      let r := runSources hashFn algos fetch rest (i + 1)
        (List.zipWith (fun row d => row ++ [d]) acc ds)
      (r.1, tr ++ r.2)

/-- The checksum rewriting loop (src/main.rs lines 147-156):
`metadata.hashes.iter().zip(digest_hashes)`, calling
`pkgbuild.set(&format!("{}sums", name), …)` with the rendered digest list for
each pair. -/
def applySums (text : String) : List String → List (List String) → String
  | _, [] => text
  | [], _ => text
  | h :: hs, row :: rows =>
    applySums (pkgbuildSet text (h ++ "sums") (renderSums h row)) hs rows

/-- `run` (src/main.rs lines 112-166): load `PKGBUILD`, set `pkgver`, extract
metadata through the shell child, build the digest set, fetch every source,
rewrite every checksum field, print the result.  Returns the outcome together
with the trace of effects. -/
def runModel (hashFn : String → List Nat → List Nat) (o : RunOracle)
    (fetch : Nat → SourceOracle) (newVersion : String) : Outcome × List Effect :=
  match o.recipeText with
  | .error m => (.ioError m, [.readRecipe])
  | .ok text =>
    let text1 := pkgbuildSet text "pkgver" newVersion
    match o.tempFile with
    | .error m => (.ioError m, [.readRecipe])
    | .ok _ =>
      match extractRun o with
      | .ioErr m => (.ioError m, [.readRecipe, .spawnShell])
      | .panicked m => (.panicked m, [.readRecipe, .spawnShell])
      | .ok md =>
        match buildDigests md.hashes with
        | .error m => (.panicked m, [.readRecipe, .spawnShell])
        | .ok algos =>
          let r := runSources hashFn algos fetch md.sources 0
            (List.replicate algos.length [])
          match r.1 with
          | .error (.io m) => (.ioError m, [.readRecipe, .spawnShell] ++ r.2)
          | .error (.pan m) => (.panicked m, [.readRecipe, .spawnShell] ++ r.2)
          | .ok matrix =>
            (.success (applySums text1 md.hashes matrix),
              [.readRecipe, .spawnShell] ++ r.2)

/-- What `main` (src/main.rs lines 168-173) leaves on standard error:
`eprintln!("Error: {}", e)` for an `Err` from `run`, the Rust runtime's panic
report for a panic (whose first line starts `thread 'main' panicked at`; the
source-location suffix is abstracted away), nothing of its own on success. -/
def mainStderr : Outcome → String
  | .success _ => ""
  | .ioError m => "Error: " ++ m ++ "\n"
  | .panicked m => "thread 'main' panicked at " ++ m ++ "\n"

/-- The process exit code: 0 on success, 1 via `std::process::exit(1)` for an
`Err` from `run`, 101 for a panic. -/
def mainExitCode : Outcome → Nat
  | .success _ => 0
  | .ioError _ => 1
  | .panicked _ => 101

/-! ### Helper lemmas about the run model -/

theorem zipWith_replicate_right {α β γ : Type} (f : α → β → γ) :
    ∀ (l : List α) (c : β),
      List.zipWith f l (List.replicate l.length c) = l.map fun a => f a c := by
  intro l
  induction l with
  | nil => intro c; rfl
  | cons a t ih => intro c; simp [List.replicate_succ, ih]

theorem zipWith_map_same {α β γ δ : Type} (g : β → γ → δ) (f1 : α → β) (f2 : α → γ) :
    ∀ l : List α,
      List.zipWith g (l.map f1) (l.map f2) = l.map fun a => g (f1 a) (f2 a) := by
  intro l
  induction l with
  | nil => rfl
  | cons a t ih => simp [ih]

theorem rangeMap_succ {β : Type} (F : Nat → β) (n i : Nat) :
    (List.range (n + 1)).map (fun j => F (i + j)) =
      F i :: (List.range n).map fun j => F (i + 1 + j) := by
  rw [List.range_succ_eq_map]
  simp only [List.map_cons, Nat.add_zero, List.map_map, Function.comp_def]
  refine congrArg₂ List.cons rfl ?_
  refine List.map_congr_left ?_
  intro j _
  exact congrArg F (by omega)

theorem streamLoop_of_bodyBytes {es : List ReadEvent} {body : List Nat}
    (h : bodyBytes es = some body) :
    ∀ file accs, streamLoop es file accs = .clean (file ++ body) (accs.map (· ++ body)) := by
  induction es generalizing body with
  | nil => simp [bodyBytes] at h
  | cons e es ih =>
    cases e with
    | chunk bs =>
      cases bs with
      | nil =>
        simp only [bodyBytes] at h
        injection h with h
        subst h
        intro file accs
        simp [streamLoop]
      | cons b bs =>
        simp only [bodyBytes] at h
        cases hb : bodyBytes es with
        | none => rw [hb] at h; simp at h
        | some body' =>
          rw [hb] at h
          simp only [Option.map] at h
          injection h with h
          subst h
          intro file accs
          show streamLoop es (file ++ (b :: bs)) (accs.map (· ++ (b :: bs))) = _
          rw [ih hb]
          simp [List.append_assoc, List.map_map, Function.comp]
    | interrupted =>
      simp only [bodyBytes] at h
      intro file accs
      show streamLoop es file accs = _
      exact ih h file accs
    | fail m => simp [bodyBytes] at h

theorem buildDigests_ok {hs : List String} (h : ∀ a ∈ hs, a ∈ knownAlgos) :
    buildDigests hs = .ok hs := by
  induction hs with
  | nil => rfl
  | cons a t ih =>
    simp only [buildDigests]
    rw [if_pos (h a (by simp))]
    rw [ih fun b hb => h b (by simp [hb])]
    rfl

theorem buildDigests_error {hs : List String}
    (h : ∃ a ∈ hs, a ∉ knownAlgos) :
    ∃ a, a ∈ hs ∧ a ∉ knownAlgos ∧ buildDigests hs = .error ("Unsupported hash " ++ a) := by
  induction hs with
  | nil => simp at h
  | cons b t ih =>
    by_cases hb : b ∈ knownAlgos
    · obtain ⟨a, ha, hbad⟩ := h
      rcases List.mem_cons.mp ha with rfl | hat
      · exact absurd hb hbad
      · obtain ⟨a', ha', hbad', herr⟩ := ih ⟨a, hat, hbad⟩
        refine ⟨a', by simp [ha'], hbad', ?_⟩
        simp only [buildDigests]
        rw [if_pos hb, herr]
        rfl
    · refine ⟨b, by simp, hb, ?_⟩
      simp only [buildDigests]
      rw [if_neg hb]

theorem fetchOne_clean {hashFn : String → List Nat → List Nat} {algos : List String}
    {s : Source} {so : SourceOracle} {body : List Nat}
    (h1 : so.http = .ok ()) (h2 : so.create = .ok ())
    (h3 : bodyBytes so.events = some body) :
    fetchOne hashFn algos s so =
      (.ok (algos.map fun a => hexEncode (hashFn a body)),
        [.httpGet s.url, .createFile s.filename]) := by
  simp only [fetchOne, h1, h2]
  rw [streamLoop_of_bodyBytes h3]
  show Prod.mk (Except.ok (List.zipWith (fun a acc => hexEncode (hashFn a acc)) algos
      ((List.replicate algos.length []).map (· ++ body)))) _ = _
  rw [show (List.replicate algos.length ([] : List Nat)).map (· ++ body)
      = List.replicate algos.length body by simp]
  rw [zipWith_replicate_right]

theorem runSources_clean (hashFn : String → List Nat → List Nat) (algos : List String)
    (fetch : Nat → SourceOracle) (body : Nat → List Nat) :
    ∀ (srcs : List Source) (i : Nat) (prev : String → List String),
      (∀ j, j < srcs.length →
        (fetch (i + j)).http = .ok () ∧ (fetch (i + j)).create = .ok () ∧
        bodyBytes (fetch (i + j)).events = some (body (i + j))) →
      (runSources hashFn algos fetch srcs i (algos.map prev)).1 =
        .ok (algos.map fun a =>
          prev a ++ (List.range srcs.length).map fun j =>
            hexEncode (hashFn a (body (i + j)))) := by
  intro srcs
  induction srcs with
  | nil =>
    intro i prev h
    simp [runSources]
  | cons s rest ih =>
    intro i prev h
    have h0 := h 0 (by simp)
    rw [Nat.add_zero] at h0
    obtain ⟨h1, h2, h3⟩ := h0
    simp only [runSources]
    rw [fetchOne_clean h1 h2 h3]
    show (runSources hashFn algos fetch rest (i + 1)
        (List.zipWith (fun row d => row ++ [d]) (algos.map prev)
          (algos.map fun a => hexEncode (hashFn a (body i))))).1 = _
    rw [zipWith_map_same]
    rw [ih (i + 1) (fun a => prev a ++ [hexEncode (hashFn a (body i))]) ?hcond]
    case hcond =>
      intro j hj
      have := h (j + 1) (by simp; omega)
      rwa [show i + (j + 1) = i + 1 + j by omega] at this
    refine congrArg Except.ok (List.map_congr_left ?_)
    intro a _
    rw [List.length_cons, rangeMap_succ (fun j => hexEncode (hashFn a (body j))) rest.length i]
    simp [List.append_assoc]

theorem renderSums_nil (hashName : String) : renderSums hashName [] = "('')" := rfl

theorem applySums_nil_rows (hs : List String) :
    ∀ text : String, applySums text hs (List.replicate hs.length []) =
      hs.foldl (fun tx h => pkgbuildSet tx (h ++ "sums") "('')") text := by
  induction hs with
  | nil => intro text; rfl
  | cons a t ih =>
    intro text
    show applySums (pkgbuildSet text (a ++ "sums") (renderSums a [])) t
        (List.replicate t.length []) = _
    rw [renderSums_nil, ih]
    rfl

theorem panic_stderr_not_error_line (msg : String) :
    ¬ ∃ m, mainStderr (Outcome.panicked msg) = "Error: " ++ m ++ "\n" := by
  rintro ⟨m, hm⟩
  have h := congrArg (fun s => s.data.take 7) hm
  simp only [mainStderr, String.data_append] at h
  rw [List.append_assoc, List.append_assoc] at h
  rw [List.take_append_of_le_length (by decide)] at h
  rw [List.take_left' (by decide)] at h
  exact absurd h (by decide)

/-! ## Concrete fixtures used by witnesses and counterexamples -/

/-- The identity "hash": enough to exercise the pipeline, since the model is
parametric in the hash implementations. -/
def idHash : String → List Nat → List Nat := fun _ bs => bs

def mdOneSource : Metadata := ⟨[⟨"x.tar.gz", "http://example/x.tar.gz"⟩], ["sha256"]⟩

def mdUnknown : Metadata := ⟨[], ["crc32"]⟩

def mdNoSources : Metadata := ⟨[], ["sha256", "md5"]⟩

def mdTwoByTwo : Metadata := ⟨[⟨"a.tar", "http://e/a.tar"⟩, ⟨"b.tar", "http://e/b.tar"⟩],
  ["md5", "sha1"]⟩

/-- A run oracle in which every external interaction succeeds and the child
prints metadata that parses to `md`. -/
def oracleFor (md : Metadata) : RunOracle :=
  ⟨.ok "pkgver=1.0\n", .ok (), .ok (), .ok (), .ok ⟨true, some md⟩⟩

def oracleNoRecipe : RunOracle :=
  ⟨.error "No such file or directory (os error 2)", .ok (), .ok (), .ok (), .error "unused"⟩

def oracleChildFailed : RunOracle :=
  ⟨.ok "pkgver=1.0\n", .ok (), .ok (), .ok (), .ok ⟨false, some mdOneSource⟩⟩

/-- Per-source oracles: every source succeeds and has an empty body. -/
def fetchNone : Nat → SourceOracle := fun _ => ⟨.ok (), .ok (), [.chunk []]⟩

/-- Per-source oracles for two sources: the first body is `[97]` (with an
interleaved retry), the second is empty. -/
def fetchTwo : Nat → SourceOracle := fun i =>
  if i = 0 then ⟨.ok (), .ok (), [.chunk [97], .interrupted, .chunk []]⟩
  else ⟨.ok (), .ok (), [.chunk []]⟩

def bodyTwo : Nat → List Nat := fun i => if i = 0 then [97] else []

/-! ## Claim C1 -/

/-- C1: when the fetch loop for one source finishes cleanly, the file holds
exactly the bytes of the response body, every digest engine has absorbed
exactly those same bytes in the same order, and hence each algorithm's
finalized hex digest equals that algorithm applied to the file's on-disk
bytes — streaming hashing is observationally equivalent to re-reading the
saved file and hashing it. -/
theorem C1_digest_agreement {es : List ReadEvent} {n : Nat} {file : List Nat}
    {accs : List (List Nat)}
    (h : streamLoop es [] (List.replicate n []) = .clean file accs) :
    bodyBytes es = some file ∧ accs = List.replicate n file ∧
    ∀ (hashFn : String → List Nat → List Nat) (algos : List String),
      algos.length = n →
      List.zipWith (fun a acc => hexEncode (hashFn a acc)) algos accs =
        algos.map fun a => hexEncode (hashFn a file) := by
  obtain ⟨body, hb, hf, ha⟩ := streamLoop_clean h
  rw [List.nil_append] at hf
  subst hf
  rw [List.map_replicate, List.nil_append] at ha
  subst ha
  refine ⟨hb, rfl, ?_⟩
  intro hashFn algos hlen
  subst hlen
  exact zipWith_replicate_right _ algos file

/-- Witness for C1 at a concrete four-event stream and two engines. -/
theorem C1_digest_agreement_witness :
    bodyBytes [ReadEvent.chunk [1, 2], ReadEvent.interrupted, ReadEvent.chunk [3],
        ReadEvent.chunk []] = some [1, 2, 3] ∧
    ([[1, 2, 3], [1, 2, 3]] : List (List Nat)) = List.replicate 2 [1, 2, 3] ∧
    List.zipWith (fun a acc => hexEncode (idHash a acc)) ["md5", "sha1"]
        [[1, 2, 3], [1, 2, 3]] =
      ["md5", "sha1"].map fun a => hexEncode (idHash a [1, 2, 3]) := by
  obtain ⟨h1, h2, h3⟩ := @C1_digest_agreement
    [ReadEvent.chunk [1, 2], ReadEvent.interrupted, ReadEvent.chunk [3], ReadEvent.chunk []]
    2 [1, 2, 3] [[1, 2, 3], [1, 2, 3]] (by decide)
  exact ⟨h1, h2, h3 idHash ["md5", "sha1"] rfl⟩

/-! ## Claim C2 -/

/-- C2 counterexample: for algorithm `md5` and digests `a`, `b` the program
puts 9 spaces (`len("md5sums") + 2`) before the second entry, aligning its
quote under the first entry's opening quote, whereas the claim's indent of
width exactly `len("md5sums")` gives 7 spaces; the two renderings differ. -/
theorem C2_counterexample :
    renderSums "md5" ["a", "b"] = "('a'\n         'b')" ∧
    renderSumsClaimC2 "md5" ["a", "b"] = "('a'\n       'b')" ∧
    renderSums "md5" ["a", "b"] ≠ renderSumsClaimC2 "md5" ["a", "b"] :=
  ⟨by decide, by decide, by decide⟩

/-- C2 amended: the checksum value is the parenthesized single-quoted list of
digests in source order, one per line, where every entry after the first is
preceded by `len("Asums") + 2` spaces, which places its opening quote exactly
under the opening quote of the first entry (that quote sits after `Asums=(`). -/
theorem C2_sums_rendering (hashName : String) (ds : List String) :
    renderSums hashName ds = renderSumsAligned hashName ds := by
  unfold renderSums renderSumsAligned
  rw [sumsSep_aligned]

/-! ## Claim C9 -/

/-- C9: transient `Interrupted` read results are retried and never surface:
the loop's outcome — file bytes, digest states, success or failure — over any
event list equals its outcome over the same events with every interruption
removed, so finitely many interruptions interleaved with the body change
nothing. -/
theorem C9_interrupted_reads_retried (es : List ReadEvent) (file : List Nat)
    (accs : List (List Nat)) :
    streamLoop es file accs = streamLoop (dropInterrupts es) file accs :=
  (streamLoop_drop_interrupts es file accs).symm

/-! ## Claim C5 -/

/-- C5 counterexample: a failing run (unknown algorithm `crc32`) that panics:
the exit code is 101 — non-zero — but standard error carries the panic
report, not an `Error: <message>` line, contradicting the claim that every
failure prints an `Error:` line. -/
theorem C5_counterexample :
    (runModel idHash (oracleFor mdUnknown) fetchNone "2.0").1 =
      .panicked "Unsupported hash crc32" ∧
    mainExitCode (Outcome.panicked "Unsupported hash crc32") = 101 ∧
    ¬ ∃ m, mainStderr (Outcome.panicked "Unsupported hash crc32") =
      "Error: " ++ m ++ "\n" :=
  ⟨by decide, rfl, panic_stderr_not_error_line _⟩

/-- C5 amended: every failing run exits with a non-zero code; failures that
`run` returns as `Err` (filesystem and process I/O) print exactly one
`Error: <message>` line on standard error, while failures by panic (unknown
algorithm, metadata decode, HTTP connect/transfer and status errors) exit 101
with the panic report, which is not an `Error:` line. -/
theorem C5_failure_surface (hashFn : String → List Nat → List Nat)
    (o : RunOracle) (fetch : Nat → SourceOracle) (nv : String)
    (hfail : ∀ t, (runModel hashFn o fetch nv).1 ≠ .success t) :
    mainExitCode (runModel hashFn o fetch nv).1 ≠ 0 ∧
    ((∃ m, (runModel hashFn o fetch nv).1 = .ioError m ∧
        mainStderr (runModel hashFn o fetch nv).1 = "Error: " ++ m ++ "\n") ∨
     (∃ m, (runModel hashFn o fetch nv).1 = .panicked m ∧
        ¬ ∃ e, mainStderr (runModel hashFn o fetch nv).1 = "Error: " ++ e ++ "\n")) := by
  rcases hout : (runModel hashFn o fetch nv).1 with t | m | m
  · exact absurd hout (hfail t)
  · exact ⟨by simp [mainExitCode], Or.inl ⟨m, rfl, rfl⟩⟩
  · exact ⟨by simp [mainExitCode], Or.inr ⟨m, rfl, panic_stderr_not_error_line m⟩⟩

/-- Witness for the amended C5 on a run that fails to read `PKGBUILD`. -/
theorem C5_failure_surface_witness :
    mainExitCode (runModel idHash oracleNoRecipe fetchNone "2.0").1 ≠ 0 ∧
    ((∃ m, (runModel idHash oracleNoRecipe fetchNone "2.0").1 = .ioError m ∧
        mainStderr (runModel idHash oracleNoRecipe fetchNone "2.0").1 =
          "Error: " ++ m ++ "\n") ∨
     (∃ m, (runModel idHash oracleNoRecipe fetchNone "2.0").1 = .panicked m ∧
        ¬ ∃ e, mainStderr (runModel idHash oracleNoRecipe fetchNone "2.0").1 =
          "Error: " ++ e ++ "\n")) :=
  C5_failure_surface idHash oracleNoRecipe fetchNone "2.0"
    (fun t h => by simp [runModel, oracleNoRecipe] at h)

/-! ## Claim C6 -/

/-- C6 counterexample: the child exits non-zero (`statusOk = false`) yet the
extractor returns the parsed metadata successfully — the exit status is never
inspected, no `ChildFailed` error exists, and parsing is attempted (and here
succeeds) regardless of the status. -/
theorem C6_counterexample :
    oracleChildFailed.waitResult = .ok ⟨false, some mdOneSource⟩ ∧
    extractRun oracleChildFailed = .ok mdOneSource :=
  ⟨rfl, rfl⟩

/-- C6 amended: after a successful spawn, stdin write and wait, the extractor
result is a function of the parsed standard output alone: parseable metadata
is returned regardless of the child's exit status, and unparseable output
panics (`unwrap` on the serde result) rather than producing a recoverable
`DecodeError`; the child's stderr is not captured. -/
theorem C6_status_never_inspected (o : RunOracle) (co : ChildOut)
    (hs : o.spawn = .ok ()) (hw : o.stdinWrite = .ok ())
    (hwr : o.waitResult = .ok co) :
    extractRun o = (match co.stdoutMeta with
      | some md => .ok md
      | none => .panicked serdePanicMsg) := by
  simp only [extractRun, hs, hw, hwr]

/-- Witness for the amended C6 at the failed-child oracle. -/
theorem C6_status_never_inspected_witness :
    extractRun oracleChildFailed = (match (some mdOneSource : Option Metadata) with
      | some md => ExtractResult.ok md
      | none => ExtractResult.panicked serdePanicMsg) :=
  C6_status_never_inspected oracleChildFailed ⟨false, some mdOneSource⟩ rfl rfl rfl

/-! ## Claim C7 -/

/-- C7: when `Metadata.hashes` contains a name outside
`{md5, sha1, sha224, sha256, sha384, sha512}`, the run fails before any HTTP
request is issued and before any source file is created: `Metadata::digests`
panics with a message naming the offending algorithm, and the effect trace of
the run contains no network and no file-creation effect. -/
theorem C7_unknown_algorithm_fails_first
    (hashFn : String → List Nat → List Nat) (o : RunOracle)
    (fetch : Nat → SourceOracle) (nv t : String) (co : ChildOut) (md : Metadata)
    (hr : o.recipeText = .ok t) (htf : o.tempFile = .ok ())
    (hs : o.spawn = .ok ()) (hw : o.stdinWrite = .ok ())
    (hwr : o.waitResult = .ok co) (hm : co.stdoutMeta = some md)
    (hbad : ∃ a ∈ md.hashes, a ∉ knownAlgos) :
    (∃ a, a ∈ md.hashes ∧ a ∉ knownAlgos ∧
      (runModel hashFn o fetch nv).1 = .panicked ("Unsupported hash " ++ a)) ∧
    ∀ e ∈ (runModel hashFn o fetch nv).2,
      (∀ u, e ≠ .httpGet u) ∧ (∀ f, e ≠ .createFile f) := by
  obtain ⟨a, ha, hbad', herr⟩ := buildDigests_error hbad
  have hrun : runModel hashFn o fetch nv =
      (.panicked ("Unsupported hash " ++ a), [.readRecipe, .spawnShell]) := by
    simp only [runModel, extractRun, hr, htf, hs, hw, hwr, hm, herr]
  rw [hrun]
  refine ⟨⟨a, ha, hbad', rfl⟩, ?_⟩
  intro e he
  rcases List.mem_cons.mp he with rfl | he
  · exact ⟨fun u => by simp, fun f => by simp⟩
  · rcases List.mem_cons.mp he with rfl | he
    · exact ⟨fun u => by simp, fun f => by simp⟩
    · simp at he

/-- Witness for C7 with the unknown algorithm `crc32`. -/
theorem C7_unknown_algorithm_witness :
    (∃ a, a ∈ mdUnknown.hashes ∧ a ∉ knownAlgos ∧
      (runModel idHash (oracleFor mdUnknown) fetchNone "2.0").1 =
        .panicked ("Unsupported hash " ++ a)) ∧
    ∀ e ∈ (runModel idHash (oracleFor mdUnknown) fetchNone "2.0").2,
      (∀ u, e ≠ .httpGet u) ∧ (∀ f, e ≠ .createFile f) :=
  C7_unknown_algorithm_fails_first idHash (oracleFor mdUnknown) fetchNone "2.0"
    "pkgver=1.0\n" ⟨true, some mdUnknown⟩ mdUnknown rfl rfl rfl rfl rfl rfl
    ⟨"crc32", by decide, by decide⟩

/-! ## Claim C10 -/

/-- C10: with `sources` empty (and all hash names recognized), the run
succeeds and the orchestrator still calls `Pkgbuild::set` once per
`<algo>sums` key, passing the literal value `('')` — the join of zero digests
wrapped in `('` and `')`, i.e. a parenthesized list holding one empty
single-quoted entry — rather than `()` or leaving the field untouched. -/
theorem C10_empty_sources (hashFn : String → List Nat → List Nat)
    (o : RunOracle) (fetch : Nat → SourceOracle) (nv t : String)
    (co : ChildOut) (md : Metadata)
    (hr : o.recipeText = .ok t) (htf : o.tempFile = .ok ())
    (hs : o.spawn = .ok ()) (hw : o.stdinWrite = .ok ())
    (hwr : o.waitResult = .ok co) (hm : co.stdoutMeta = some md)
    (hsrc : md.sources = []) (hok : ∀ a ∈ md.hashes, a ∈ knownAlgos) :
    (runModel hashFn o fetch nv).1 =
      .success (md.hashes.foldl (fun tx a => pkgbuildSet tx (a ++ "sums") "('')")
        (pkgbuildSet t "pkgver" nv)) := by
  have hbd := buildDigests_ok hok
  simp only [runModel, extractRun, hr, htf, hs, hw, hwr, hm, hbd, hsrc, runSources]
  rw [applySums_nil_rows]

/-! ## Claim C4 -/

theorem lineOf_eq_self {l : List Char} (h : '\n' ∉ l) : lineOf l = l :=
  List.takeWhile_eq_self_iff.mpr fun x hx => by
    simp only [ne_eq, decide_eq_true_eq]
    intro hxe
    exact h (hxe ▸ hx)

theorem dropWhile_newline_nil {l : List Char} (h : '\n' ∉ l) :
    l.dropWhile (· ≠ '\n') = [] :=
  List.dropWhile_eq_nil_iff.mpr fun x hx => by
    simp only [ne_eq, decide_eq_true_eq]
    intro hxe
    exact h (hxe ▸ hx)

theorem matchValue_token {b : List Char} (hb : b ≠ []) (hbn : '\n' ∉ b)
    (hbp : ∀ c, b.head? = some c → c ≠ '(') :
    matchValue b = some (b, []) := by
  cases b with
  | nil => simp at hb
  | cons c t =>
    have hc : c ≠ '(' := hbp c rfl
    simp only [matchValue]
    rw [if_neg hc]
    unfold tokenValue
    rw [if_neg (by rw [lineOf_eq_self hbn]; simp)]
    rw [lineOf_eq_self hbn, dropWhile_newline_nil hbn]

theorem getElem_cons_mem_of_pos {α : Type} (c : α) (l : List α) (m : Nat)
    (hm : 1 ≤ m) (h : m < (c :: l).length) : (c :: l)[m] ∈ l := by
  obtain ⟨k, rfl⟩ : ∃ k, m = k + 1 := ⟨m - 1, by omega⟩
  rw [List.getElem_cons_succ]
  exact List.getElem_mem _

theorem findEntry_succ_eq (l : List Char) (j : Nat) :
    findEntry l (j + 1) = match entryAtSep l (j + 1) with
      | some e => some e
      | none => findEntry l j := rfl

theorem findEntry_descend (l : List Char) (m : Nat) :
    ∀ n, m ≤ n → (∀ j, m < j → j ≤ n → entryAtSep l j = none) →
      findEntry l n = findEntry l m := by
  intro n
  induction n with
  | zero =>
    intro hm _
    have : m = 0 := by omega
    rw [this]
  | succ n ih =>
    intro hm hnone
    rcases Nat.eq_or_lt_of_le hm with heq | hlt
    · rw [heq]
    · rw [findEntry_succ_eq, hnone (n + 1) (by omega) (le_refl _)]
      exact ih (by omega) fun j h1 h2 => hnone j h1 (by omega)

/-- C4 counterexample: on the text `a=b=c` the recognized key is `a=b` — the
greedy `(.+)` keeps everything up to the last `=` that still leaves a value —
not the claimed `a` (maximal run of non-`=` characters before the first `=`):
`set` with key `a` leaves the text unchanged, while `set` with key `a=b`
rewrites the value. -/
theorem C4_counterexample :
    matchEntryAt "a=b=c".toList = some ("a=b".toList, "c".toList, []) ∧
    pkgbuildSet "a=b=c" "a" "z" = "a=b=c" ∧
    pkgbuildSet "a=b=c" "a=b" "z" = "a=b=z" :=
  ⟨by decide, by decide, by decide⟩

/-- C4 amended: the pattern recognizes `<key>=<value>` where the key is one
or more non-newline characters that may themselves contain `=`: the separator
is the rightmost `=` of the line at which a value can still match.  For any
non-empty newline-free `a` and any non-empty `b` that contains no newline and
no `=` and does not start with `(`, the text `a=b` is matched with key
exactly `a` and value `b` — so on `a=b=c` the key is `a=b`, not `a`. -/
theorem C4_greedy_key (a b : List Char)
    (ha : a ≠ []) (han : '\n' ∉ a)
    (hb : b ≠ []) (hbn : '\n' ∉ b) (hbe : '=' ∉ b)
    (hbp : ∀ c, b.head? = some c → c ≠ '(') :
    matchEntryAt (a ++ '=' :: b) = some (a, b, []) := by
  have hnl : '\n' ∉ a ++ '=' :: b := by
    intro hmem
    rcases List.mem_append.mp hmem with h | h
    · exact han h
    · rcases List.mem_cons.mp h with h | h
      · simp at h
      · exact hbn h
  have hline : lineOf (a ++ '=' :: b) = a ++ '=' :: b := lineOf_eq_self hnl
  have hlen : (a ++ '=' :: b).length = a.length + 1 + b.length := by
    simp only [List.length_append, List.length_cons]
    omega
  have hapos : 1 ≤ a.length := by
    have := List.length_pos.mpr ha
    omega
  have hdrop : (a ++ '=' :: b).drop (a.length + 1) = b := by
    rw [show a ++ '=' :: b = (a ++ ['=']) ++ b by simp]
    exact List.drop_left' (by simp)
  have hsep : entryAtSep (a ++ '=' :: b) a.length = some (a, b, []) := by
    unfold entryAtSep
    simp only [hline]
    rw [dif_pos (by rw [hlen]; omega)]
    rw [if_pos ?hcond]
    case hcond =>
      refine ⟨hapos, ?_⟩
      rw [List.getElem_append_right (le_refl a.length)]
      simp
    rw [hdrop, matchValue_token hb hbn hbp, List.take_left]
  have hnone : ∀ j, a.length < j → j ≤ a.length + 1 + b.length →
      entryAtSep (a ++ '=' :: b) j = none := by
    intro j hj1 hj2
    unfold entryAtSep
    simp only [hline]
    by_cases hjlt : j < (a ++ '=' :: b).length
    · rw [dif_pos hjlt]
      rw [if_neg ?hneg]
      case hneg =>
        rintro ⟨-, heq⟩
        rw [List.getElem_append_right (by omega)] at heq
        refine hbe ?_
        rw [← heq]
        exact getElem_cons_mem_of_pos '=' b (j - a.length) (by omega)
          (by simp only [List.length_cons]; rw [hlen] at hjlt; omega)
    · rw [dif_neg hjlt]
  unfold matchEntryAt
  rw [hline, hlen]
  rw [findEntry_descend (a ++ '=' :: b) a.length (a.length + 1 + b.length) (by omega) hnone]
  obtain ⟨n0, hn0⟩ : ∃ n0, a.length = n0 + 1 := ⟨a.length - 1, by omega⟩
  rw [hn0] at hsep ⊢
  rw [findEntry_succ_eq, hsep]

/-- Witness for the amended C4 at `a=b` `=` `c`, recovering the `a=b=c`
instance of the claim. -/
theorem C4_greedy_key_witness :
    matchEntryAt ("a=b".toList ++ '=' :: "c".toList) =
      some ("a=b".toList, "c".toList, []) :=
  C4_greedy_key "a=b".toList "c".toList (by decide) (by decide) (by decide)
    (by decide) (by decide) (by decide)

/-!
  ## Claim C8

For commutativity the matcher is characterized on texts whose lines contain
no parenthesis character: there the parenthesized value branch can never
start, every match lies within one line, and the scanner decomposes into a
per-line transformation `setLinePF`.
-/

/-- What may follow one line in a larger text: nothing, or a newline and the
rest. -/
def lineTail (rest : List Char) : Prop := rest = [] ∨ ∃ r, rest = '\n' :: r

/-- A separator position on a single line: `=` with a non-empty key before it
and a non-empty same-line value after it. -/
def isSep (line : List Char) (j : Nat) : Prop :=
  1 ≤ j ∧ j + 1 < line.length ∧ line.getD j ' ' = '='

instance (line : List Char) (j : Nat) : Decidable (isSep line j) := by
  unfold isSep
  infer_instance

/-- The rightmost separator of a line, if any. -/
def lastSepAux (line : List Char) : Nat → Option Nat
  | 0 => none
  | j + 1 => if isSep line (j + 1) then some (j + 1) else lastSepAux line j

def lastSep (line : List Char) : Option Nat := lastSepAux line line.length

/-- The recognized key of a single paren-free line, if the line is an entry. -/
def lineKeyPF (line : List Char) : Option (List Char) :=
  (lastSep line).map fun j => line.take j

/-- `Pkgbuild::set` restricted to one paren-free line. -/
def setLinePF (k v line : List Char) : List Char :=
  match lastSep line with
  | some j => line.take j ++ '=' :: (if line.take j = k then v else line.drop (j + 1))
  | none => line

/-- Newline-join of lines (inverse of splitting a text into lines). -/
def joinLines : List (List Char) → List Char
  | [] => []
  | [l] => l
  | l :: ls => l ++ '\n' :: joinLines ls

theorem lastSepAux_some {line : List Char} :
    ∀ n j, lastSepAux line n = some j →
      isSep line j ∧ j ≤ n ∧ ∀ j2, j < j2 → j2 ≤ n → ¬ isSep line j2 := by
  intro n
  induction n with
  | zero => intro j h; simp [lastSepAux] at h
  | succ n ih =>
    intro j h
    simp only [lastSepAux] at h
    by_cases hs : isSep line (n + 1)
    · rw [if_pos hs] at h
      injection h with h
      subst h
      exact ⟨hs, le_refl _, fun j2 h1 h2 => by omega⟩
    · rw [if_neg hs] at h
      obtain ⟨h1, h2, h3⟩ := ih j h
      refine ⟨h1, by omega, ?_⟩
      intro j2 hj1 hj2
      rcases Nat.lt_or_ge j2 (n + 1) with hlt | hge
      · exact h3 j2 hj1 (by omega)
      · have : j2 = n + 1 := by omega
        rw [this]
        exact hs

theorem lastSepAux_none {line : List Char} :
    ∀ n, lastSepAux line n = none → ∀ j, 1 ≤ j → j ≤ n → ¬ isSep line j := by
  intro n
  induction n with
  | zero => intro _ j h1 h2; omega
  | succ n ih =>
    intro h j h1 h2
    simp only [lastSepAux] at h
    by_cases hs : isSep line (n + 1)
    · rw [if_pos hs] at h; exact absurd h (by simp)
    · rw [if_neg hs] at h
      rcases Nat.lt_or_ge j (n + 1) with hlt | hge
      · exact ih h j h1 (by omega)
      · have : j = n + 1 := by omega
        rw [this]
        exact hs

theorem lastSepAux_eq_some {line : List Char} {m : Nat} (hm : isSep line m) :
    ∀ n, m ≤ n → (∀ j2, m < j2 → j2 ≤ n → ¬ isSep line j2) →
      lastSepAux line n = some m := by
  intro n
  induction n with
  | zero =>
    intro h1 _
    obtain ⟨hm1, -, -⟩ := hm
    omega
  | succ n ih =>
    intro h1 h2
    simp only [lastSepAux]
    rcases Nat.eq_or_lt_of_le h1 with heq | hlt
    · rw [if_pos (heq ▸ hm)]
      rw [heq]
    · rw [if_neg (h2 (n + 1) (by omega) (le_refl _))]
      exact ih (by omega) fun j2 ha hb => h2 j2 ha (by omega)

/-- Separators over the whole line are exactly what `lastSep` searches. -/
theorem lastSep_some {line : List Char} {j : Nat} (h : lastSep line = some j) :
    isSep line j ∧ ∀ j2, j < j2 → ¬ isSep line j2 := by
  obtain ⟨h1, -, h3⟩ := lastSepAux_some line.length j h
  refine ⟨h1, ?_⟩
  intro j2 hj2
  by_cases hle : j2 ≤ line.length
  · exact h3 j2 hj2 hle
  · rintro ⟨-, hlt, -⟩
    omega

theorem lastSep_none {line : List Char} (h : lastSep line = none) :
    ∀ j, ¬ isSep line j := by
  intro j
  by_cases h1 : 1 ≤ j
  · by_cases hle : j ≤ line.length
    · exact lastSepAux_none line.length h j h1 hle
    · rintro ⟨-, hlt, -⟩
      omega
  · rintro ⟨hj, -, -⟩
    omega

theorem lastSep_eq_some {line : List Char} {m : Nat} (hm : isSep line m)
    (hmax : ∀ j2, m < j2 → ¬ isSep line j2) : lastSep line = some m := by
  refine lastSepAux_eq_some hm line.length ?_ fun j2 ha _ => hmax j2 ha
  obtain ⟨-, hlt, -⟩ := hm
  omega

theorem getD_eq_getElem_of_lt {α : Type} (l : List α) (d : α) {n : Nat}
    (h : n < l.length) : l.getD n d = l[n] := by
  rw [List.getD_eq_getElem?_getD, List.getElem?_eq_getElem h, Option.getD_some]

/-- Reconstruction: an entry line is its key, `=`, and its value. -/
theorem line_reconstruct {line : List Char} {j : Nat} (h : isSep line j) :
    line.take j ++ '=' :: line.drop (j + 1) = line := by
  obtain ⟨h1, h2, h3⟩ := h
  conv_rhs => rw [← List.take_append_drop j line]
  congr 1
  rw [List.drop_eq_getElem_cons (by omega : j < line.length)]
  congr 1
  rw [← getD_eq_getElem_of_lt line ' ' (by omega : j < line.length)]
  exact h3.symm

theorem lineOf_append_nl {r : List Char} :
    ∀ line : List Char, '\n' ∉ line → lineOf (line ++ '\n' :: r) = line := by
  intro line
  induction line with
  | nil => intro _; rfl
  | cons c t ih =>
    intro hn
    have hc : c ≠ '\n' := fun h => hn (by simp [h])
    have ht : '\n' ∉ t := fun h => hn (by simp [h])
    show lineOf (c :: (t ++ '\n' :: r)) = c :: t
    simp only [lineOf, List.takeWhile_cons]
    rw [if_pos (by simp [hc])]
    exact congrArg (c :: ·) (ih ht)

theorem dropWhile_append_nl {r : List Char} :
    ∀ line : List Char, '\n' ∉ line →
      (line ++ '\n' :: r).dropWhile (· ≠ '\n') = '\n' :: r := by
  intro line
  induction line with
  | nil => intro _; rfl
  | cons c t ih =>
    intro hn
    have hc : c ≠ '\n' := fun h => hn (by simp [h])
    have ht : '\n' ∉ t := fun h => hn (by simp [h])
    show (c :: (t ++ '\n' :: r)).dropWhile (· ≠ '\n') = '\n' :: r
    rw [List.dropWhile_cons]
    rw [if_pos (by simp [hc])]
    exact ih ht

theorem lineOf_line_append {line rest : List Char} (hn : '\n' ∉ line)
    (ht : lineTail rest) : lineOf (line ++ rest) = line := by
  rcases ht with rfl | ⟨r, rfl⟩
  · rw [List.append_nil]
    exact lineOf_eq_self hn
  · exact lineOf_append_nl line hn

theorem dropWhile_line_append {line rest : List Char} (hn : '\n' ∉ line)
    (ht : lineTail rest) : (line ++ rest).dropWhile (· ≠ '\n') = rest := by
  rcases ht with rfl | ⟨r, rfl⟩
  · rw [List.append_nil]
    exact dropWhile_newline_nil hn
  · exact dropWhile_append_nl line hn

theorem matchValue_token_line {d rest : List Char} (hd : d ≠ []) (hdn : '\n' ∉ d)
    (hdp : ∀ c, d.head? = some c → c ≠ '(') (ht : lineTail rest) :
    matchValue (d ++ rest) = some (d, rest) := by
  cases d with
  | nil => simp at hd
  | cons c t =>
    have hc : c ≠ '(' := hdp c rfl
    have h1 : lineOf (c :: (t ++ rest)) = c :: t := lineOf_line_append hdn ht
    have h2 : (c :: (t ++ rest)).dropWhile (· ≠ '\n') = rest :=
      dropWhile_line_append hdn ht
    show matchValue (c :: (t ++ rest)) = _
    simp only [matchValue]
    rw [if_neg hc]
    unfold tokenValue
    rw [if_neg (by rw [h1]; simp)]
    rw [h1, h2]

theorem matchValue_tail_none {rest : List Char} (ht : lineTail rest) :
    matchValue rest = none := by
  rcases ht with rfl | ⟨r, rfl⟩
  · rfl
  · simp only [matchValue]
    rw [if_neg (by decide)]
    unfold tokenValue
    rw [if_pos (show lineOf ('\n' :: r) = [] from rfl)]

theorem value_decomp {line rest : List Char} {j : Nat} (hn : '\n' ∉ line)
    (hp : '(' ∉ line) (ht : lineTail rest) (hj : j + 1 < line.length) :
    matchValue ((line ++ rest).drop (j + 1)) = some (line.drop (j + 1), rest) := by
  rw [List.drop_append_of_le_length (by omega)]
  refine matchValue_token_line ?_ ?_ ?_ ht
  · intro hnil
    have := congrArg List.length hnil
    rw [List.length_drop] at this
    simp at this
    omega
  · intro hmem
    exact hn (List.drop_subset _ _ hmem)
  · intro c hc hcp
    exact hp (hcp ▸ List.drop_subset _ _ (List.mem_of_mem_head? (by rw [hc]; rfl)))

theorem entryAtSep_of_isSep {line rest : List Char} {j : Nat}
    (hn : '\n' ∉ line) (hp : '(' ∉ line) (ht : lineTail rest)
    (hsep : isSep line j) :
    entryAtSep (line ++ rest) j = some (line.take j, line.drop (j + 1), rest) := by
  obtain ⟨hj1, hjlt, hjeq⟩ := hsep
  unfold entryAtSep
  simp only [lineOf_line_append hn ht]
  rw [dif_pos (by omega : j < line.length)]
  rw [if_pos ⟨hj1, by rw [← getD_eq_getElem_of_lt line ' ' (by omega : j < line.length)]; exact hjeq⟩]
  rw [value_decomp hn hp ht hjlt]

theorem entryAtSep_none_of_not_isSep {line rest : List Char} {j : Nat}
    (hn : '\n' ∉ line) (ht : lineTail rest) (hns : ¬ isSep line j) (hj1 : 1 ≤ j) :
    entryAtSep (line ++ rest) j = none := by
  unfold entryAtSep
  simp only [lineOf_line_append hn ht]
  by_cases hjlt : j < line.length
  · rw [dif_pos hjlt]
    by_cases heq : line.getD j ' ' = '='
    · have hlast : j + 1 = line.length := by
        by_contra hne
        exact hns ⟨hj1, by omega, heq⟩
      rw [if_pos ⟨hj1, by rw [← getD_eq_getElem_of_lt line ' ' hjlt]; exact heq⟩]
      rw [show (line ++ rest).drop (j + 1) = rest by rw [hlast]; exact List.drop_left line rest]
      rw [matchValue_tail_none ht]
    · rw [if_neg ?hneg]
      case hneg =>
        rintro ⟨-, hcond⟩
        refine heq ?_
        rw [getD_eq_getElem_of_lt line ' ' hjlt]
        exact hcond
  · rw [dif_neg hjlt]

theorem matchEntryAt_entry {line rest : List Char} {j : Nat}
    (hn : '\n' ∉ line) (hp : '(' ∉ line) (ht : lineTail rest)
    (hlast : lastSep line = some j) :
    matchEntryAt (line ++ rest) = some (line.take j, line.drop (j + 1), rest) := by
  obtain ⟨hsep, hmax⟩ := lastSep_some hlast
  have hj1 : 1 ≤ j := hsep.1
  have hjlt : j + 1 < line.length := hsep.2.1
  unfold matchEntryAt
  rw [lineOf_line_append hn ht]
  rw [findEntry_descend (line ++ rest) j line.length (by omega) ?mnone]
  case mnone =>
    intro j2 h1 h2
    rcases Nat.eq_or_lt_of_le h2 with heq2 | hlt2
    · unfold entryAtSep
      simp only [lineOf_line_append hn ht]
      rw [dif_neg (by omega)]
    · exact entryAtSep_none_of_not_isSep hn ht (hmax j2 h1) (by omega)
  have hyes := entryAtSep_of_isSep hn hp ht hsep
  obtain ⟨n0, hn0⟩ : ∃ n0, j = n0 + 1 := ⟨j - 1, by omega⟩
  rw [hn0] at hyes ⊢
  rw [findEntry_succ_eq, hyes]

theorem matchEntryAt_none_line {line rest : List Char}
    (hn : '\n' ∉ line) (ht : lineTail rest) (hlast : lastSep line = none) :
    matchEntryAt (line ++ rest) = none := by
  have hns := lastSep_none hlast
  unfold matchEntryAt
  rw [lineOf_line_append hn ht]
  rw [findEntry_descend (line ++ rest) 0 line.length (by omega) ?h]
  · rfl
  case h =>
    intro j2 h1 h2
    rcases Nat.eq_or_lt_of_le h2 with heq2 | hlt2
    · unfold entryAtSep
      simp only [lineOf_line_append hn ht]
      rw [dif_neg (by omega)]
    · exact entryAtSep_none_of_not_isSep hn ht (hns j2) (by omega)

theorem lastSep_eq_none {line : List Char} (hns : ∀ j, ¬ isSep line j) :
    lastSep line = none := by
  cases h : lastSep line with
  | none => rfl
  | some j => exact absurd (lastSep_some h).1 (hns j)

theorem noSep_tail {c : Char} {t : List Char} (hns : ∀ j, ¬ isSep (c :: t) j) :
    ∀ j, ¬ isSep t j := by
  rintro j ⟨h1, h2, h3⟩
  refine hns (j + 1) ⟨by omega, ?_, ?_⟩
  · simp only [List.length_cons]
    omega
  · rw [List.getD_cons_succ]
    exact h3

/-- The scanner walks through a line with no separator, copying it
verbatim. -/
theorem scan_no_entry (k v : List Char) :
    ∀ (line rest : List Char) (fuel : Nat),
      '\n' ∉ line → lineTail rest → (∀ j, ¬ isSep line j) →
      applySetAux k v (fuel + line.length) (line ++ rest) =
        line ++ applySetAux k v fuel rest := by
  intro line
  induction line with
  | nil => intro rest fuel _ _ _; simp
  | cons c t ih =>
    intro rest fuel hn ht hns
    have hnone : matchEntryAt ((c :: t) ++ rest) = none :=
      matchEntryAt_none_line hn ht (lastSep_eq_none hns)
    rw [List.cons_append] at hnone
    show applySetAux k v (fuel + (t.length + 1)) (c :: (t ++ rest)) =
      c :: (t ++ applySetAux k v fuel rest)
    rw [show fuel + (t.length + 1) = (fuel + t.length) + 1 by omega]
    rw [applySetAux_cons, hnone]
    show c :: applySetAux k v (fuel + t.length) (t ++ rest) = _
    refine congrArg (c :: ·) ?_
    exact ih rest fuel (fun h => hn (by simp [h])) ht (noSep_tail hns)

/-- The scanner consumes an entry line in one match and rewrites it. -/
theorem scan_entry_line (k v : List Char) {line rest : List Char} {j : Nat}
    (hn : '\n' ∉ line) (hp : '(' ∉ line) (ht : lineTail rest)
    (hlast : lastSep line = some j) (fuel : Nat) (hfuel : rest.length ≤ fuel) :
    applySetAux k v (fuel + line.length) (line ++ rest) =
      (line.take j ++ '=' :: (if line.take j = k then v else line.drop (j + 1)))
        ++ applySetAux k v fuel rest := by
  have hmatch := matchEntryAt_entry hn hp ht hlast
  obtain ⟨hsep, -⟩ := lastSep_some hlast
  obtain ⟨hj1, hjlt, -⟩ := hsep
  obtain ⟨c, t, rfl⟩ := List.exists_cons_of_ne_nil
    (show line ≠ [] by intro h; rw [h] at hjlt; simp at hjlt)
  rw [List.cons_append] at hmatch
  show applySetAux k v (fuel + (t.length + 1)) (c :: (t ++ rest)) = _
  rw [show fuel + (t.length + 1) = (fuel + t.length) + 1 by omega]
  rw [applySetAux_cons, hmatch]
  show ((c :: t).take j ++ '=' :: (if (c :: t).take j = k then v else (c :: t).drop (j + 1)))
      ++ applySetAux k v (fuel + t.length) rest = _
  rw [applySetAux_fuel k v (fuel + t.length) fuel rest (by omega) hfuel]

/-- The scanner over a newline-joined list of paren-free lines is the
line-wise `setLinePF`. -/
theorem scan_join (k v : List Char) :
    ∀ ls : List (List Char), (∀ l ∈ ls, '\n' ∉ l ∧ '(' ∉ l) →
      applySetAux k v (joinLines ls).length (joinLines ls) =
        joinLines (ls.map (setLinePF k v)) := by
  intro ls
  induction ls with
  | nil => intro _; rfl
  | cons l ls ih =>
    intro hpf
    obtain ⟨hn, hp⟩ := hpf l (by simp)
    have hpf2 : ∀ l2 ∈ ls, '\n' ∉ l2 ∧ '(' ∉ l2 := fun l2 h2 => hpf l2 (by simp [h2])
    cases ls with
    | nil =>
      show applySetAux k v l.length l = joinLines [setLinePF k v l]
      cases hls : lastSep l with
      | some j =>
        have h := scan_entry_line k v hn hp (Or.inl rfl) hls 0 (by simp)
        simp only [Nat.zero_add, List.append_nil] at h
        rw [h]
        show _ = setLinePF k v l
        unfold setLinePF
        rw [hls]
        show _ ++ applySetAux k v 0 [] = _
        rw [show applySetAux k v 0 [] = [] from rfl, List.append_nil]
      | none =>
        have h := scan_no_entry k v l [] 0 hn (Or.inl rfl) (lastSep_none hls)
        simp only [Nat.zero_add, List.append_nil] at h
        rw [h]
        show l ++ applySetAux k v 0 [] = setLinePF k v l
        rw [show applySetAux k v 0 [] = [] from rfl, List.append_nil]
        unfold setLinePF
        rw [hls]
    | cons l2 ls2 =>
      have hjoin : joinLines (l :: l2 :: ls2) = l ++ '\n' :: joinLines (l2 :: ls2) := rfl
      have hlen : (joinLines (l :: l2 :: ls2)).length =
          ((joinLines (l2 :: ls2)).length + 1) + l.length := by
        rw [hjoin]
        simp only [List.length_append, List.length_cons]
        omega
      have htail : lineTail ('\n' :: joinLines (l2 :: ls2)) :=
        Or.inr ⟨joinLines (l2 :: ls2), rfl⟩
      have hafter : applySetAux k v ((joinLines (l2 :: ls2)).length + 1)
          ('\n' :: joinLines (l2 :: ls2)) =
          '\n' :: joinLines ((l2 :: ls2).map (setLinePF k v)) := by
        rw [applySetAux_cons,
          show matchEntryAt ('\n' :: joinLines (l2 :: ls2)) = none from rfl]
        show '\n' :: applySetAux k v (joinLines (l2 :: ls2)).length (joinLines (l2 :: ls2)) = _
        rw [ih hpf2]
      have hmapjoin : joinLines ((l :: l2 :: ls2).map (setLinePF k v)) =
          setLinePF k v l ++ '\n' :: joinLines ((l2 :: ls2).map (setLinePF k v)) := rfl
      rw [hlen, hjoin, hmapjoin]
      cases hls : lastSep l with
      | some j =>
        rw [scan_entry_line k v hn hp htail hls ((joinLines (l2 :: ls2)).length + 1)
          (by simp)]
        rw [hafter]
        unfold setLinePF
        rw [hls]
      | none =>
        rw [scan_no_entry k v l ('\n' :: joinLines (l2 :: ls2))
          ((joinLines (l2 :: ls2)).length + 1) hn htail (lastSep_none hls)]
        rw [hafter]
        unfold setLinePF
        rw [hls]

/-- `setLinePF` with a key the line does not carry is the identity. -/
theorem setLinePF_id {k v line : List Char} (h : lineKeyPF line ≠ some k) :
    setLinePF k v line = line := by
  unfold setLinePF
  cases hls : lastSep line with
  | none => rfl
  | some j =>
    have hkey : line.take j ≠ k := by
      intro hk
      refine h ?_
      unfold lineKeyPF
      rw [hls]
      simp [hk]
    show line.take j ++ '=' :: (if line.take j = k then v else line.drop (j + 1)) = line
    rw [if_neg hkey]
    exact line_reconstruct (lastSep_some hls).1

/-- Substituting a non-empty `=`-free value keeps the separator at the key's
end, so the rewritten line still parses with the same key. -/
theorem lastSep_subst {key v : List Char} (hk : key ≠ []) (hv : v ≠ [])
    (hve : '=' ∉ v) : lastSep (key ++ '=' :: v) = some key.length := by
  have hklen : 1 ≤ key.length := List.length_pos.mpr hk
  have hvlen : 1 ≤ v.length := List.length_pos.mpr hv
  have hlen : (key ++ '=' :: v).length = key.length + 1 + v.length := by
    simp only [List.length_append, List.length_cons]
    omega
  refine lastSep_eq_some ⟨hklen, by omega, ?_⟩ ?_
  · rw [getD_eq_getElem_of_lt _ ' ' (by omega)]
    rw [List.getElem_append_right (le_refl key.length)]
    simp
  · rintro j2 hj2 ⟨-, hj2lt, hj2eq⟩
    rw [getD_eq_getElem_of_lt _ ' ' (by omega)] at hj2eq
    rw [List.getElem_append_right (by omega)] at hj2eq
    refine hve ?_
    rw [← hj2eq]
    exact getElem_cons_mem_of_pos '=' v (j2 - key.length) (by omega)
      (by simp only [List.length_cons]; omega)

/-- Line hygiene is preserved by `setLinePF` for clean values. -/
theorem setLinePF_pf {k v line : List Char} (hn : '\n' ∉ line) (hp : '(' ∉ line)
    (hvn : '\n' ∉ v) (hvp : '(' ∉ v) :
    '\n' ∉ setLinePF k v line ∧ '(' ∉ setLinePF k v line := by
  unfold setLinePF
  cases hls : lastSep line with
  | none => exact ⟨hn, hp⟩
  | some j =>
    have hmem : ∀ c, c ∈ line.take j ++
        '=' :: (if line.take j = k then v else line.drop (j + 1)) →
        c = '=' ∨ c ∈ line ∨ c ∈ v := by
      intro c hc
      rcases List.mem_append.mp hc with h | h
      · exact Or.inr (Or.inl (List.mem_of_mem_take h))
      · rcases List.mem_cons.mp h with rfl | h
        · exact Or.inl rfl
        · by_cases hif : line.take j = k
          · rw [if_pos hif] at h
            exact Or.inr (Or.inr h)
          · rw [if_neg hif] at h
            exact Or.inr (Or.inl (List.drop_subset _ _ h))
    constructor
    · intro hc
      rcases hmem '\n' hc with h | h | h
      · exact absurd h (by decide)
      · exact hn h
      · exact hvn h
    · intro hc
      rcases hmem '(' hc with h | h | h
      · exact absurd h (by decide)
      · exact hp h
      · exact hvp h

/-- Per-line commutation of two `set`s with distinct keys and clean values. -/
theorem setLinePF_comm {k k2 v v2 : List Char} (hkk : k ≠ k2)
    (hv : v ≠ []) (hve : '=' ∉ v) (hv2 : v2 ≠ []) (hv2e : '=' ∉ v2)
    (line : List Char) :
    setLinePF k v (setLinePF k2 v2 line) = setLinePF k2 v2 (setLinePF k v line) := by
  cases hls : lastSep line with
  | none =>
    have h1 : setLinePF k v line = line := by unfold setLinePF; rw [hls]
    have h2 : setLinePF k2 v2 line = line := by unfold setLinePF; rw [hls]
    rw [h2, h1, h2]
  | some j =>
    have hsep := (lastSep_some hls).1
    have hkey_ne : line.take j ≠ [] := by
      intro h0
      have := congrArg List.length h0
      rw [List.length_take] at this
      simp only [List.length_nil] at this
      obtain ⟨ha, hb, -⟩ := hsep
      omega
    by_cases hk1 : line.take j = k
    · have hset : setLinePF k v line = line.take j ++ '=' :: v := by
        unfold setLinePF
        rw [hls]
        show line.take j ++ '=' :: (if line.take j = k then v else line.drop (j + 1)) = _
        rw [if_pos hk1]
      have hid2 : setLinePF k2 v2 line = line := by
        refine setLinePF_id ?_
        unfold lineKeyPF
        rw [hls]
        simp only [Option.map_some', ne_eq, Option.some.injEq]
        rw [hk1]
        exact hkk
      have hre : lastSep (line.take j ++ '=' :: v) = some (line.take j).length :=
        lastSep_subst hkey_ne hv hve
      have hid2b : setLinePF k2 v2 (line.take j ++ '=' :: v) =
          line.take j ++ '=' :: v := by
        refine setLinePF_id ?_
        unfold lineKeyPF
        rw [hre]
        simp only [Option.map_some', ne_eq, Option.some.injEq]
        rw [List.take_left, hk1]
        exact hkk
      rw [hid2, hset, hid2b]
    · by_cases hk2 : line.take j = k2
      · have hset : setLinePF k2 v2 line = line.take j ++ '=' :: v2 := by
          unfold setLinePF
          rw [hls]
          show line.take j ++ '=' :: (if line.take j = k2 then v2 else line.drop (j + 1)) = _
          rw [if_pos hk2]
        have hid1 : setLinePF k v line = line := by
          refine setLinePF_id ?_
          unfold lineKeyPF
          rw [hls]
          simp only [Option.map_some', ne_eq, Option.some.injEq]
          exact hk1
        have hre : lastSep (line.take j ++ '=' :: v2) = some (line.take j).length :=
          lastSep_subst hkey_ne hv2 hv2e
        have hid1b : setLinePF k v (line.take j ++ '=' :: v2) =
            line.take j ++ '=' :: v2 := by
          refine setLinePF_id ?_
          unfold lineKeyPF
          rw [hre]
          simp only [Option.map_some', ne_eq, Option.some.injEq]
          rw [List.take_left]
          exact hk1
        rw [hset, hid1, hset, hid1b]
      · have hid1 : setLinePF k v line = line := by
          refine setLinePF_id ?_
          unfold lineKeyPF
          rw [hls]
          simp only [Option.map_some', ne_eq, Option.some.injEq]
          exact hk1
        have hid2 : setLinePF k2 v2 line = line := by
          refine setLinePF_id ?_
          unfold lineKeyPF
          rw [hls]
          simp only [Option.map_some', ne_eq, Option.some.injEq]
          exact hk2
        rw [hid2, hid1, hid2]

/-- With no match carrying key `k`, `replace_all` reproduces the input:
every match is rewritten to its own bytes. -/
theorem applySetAux_of_key_not_mem (k v : List Char) :
    ∀ fuel l, k ∉ scanKeysAux fuel l → applySetAux k v fuel l = l := by
  intro fuel
  induction fuel with
  | zero => intro l _; rfl
  | succ fuel ih =>
    intro l hmem
    cases l with
    | nil => rfl
    | cons c t =>
      cases hm : matchEntryAt (c :: t) with
      | some e =>
        obtain ⟨g1, g2, rest⟩ := e
        simp only [scanKeysAux_cons, hm, List.mem_cons, not_or] at hmem
        obtain ⟨hne, hrest⟩ := hmem
        rw [applySetAux_cons, hm]
        show (g1 ++ '=' :: (if g1 = k then v else g2)) ++ applySetAux k v fuel rest = c :: t
        rw [if_neg fun h => hne h.symm]
        rw [ih rest hrest]
        have hdec := (matchEntryAt_decomp hm).1
        rw [hdec]
        simp
      | none =>
        simp only [scanKeysAux_cons, hm] at hmem
        rw [applySetAux_cons, hm]
        show c :: applySetAux k v fuel t = c :: t
        rw [ih t hmem]

/-- C8 amended: on recipe texts whose lines contain no parenthesis character
(all entries single-line), for distinct keys and values that are non-empty
and free of newlines, `=` and `(`, the two `set`s commute; the result is the
line-wise rewrite of the text; every line whose recognized key is neither of
the two keys is byte-identical to the input line.  Separately, on any text at
all, `set` of a key that no recognized entry carries returns the text
unchanged — it is not an error. -/
theorem C8_set_commutes :
    (∀ (ls : List (List Char)) (k k2 v v2 : List Char),
      (∀ l ∈ ls, '\n' ∉ l ∧ '(' ∉ l) → k ≠ k2 →
      v ≠ [] → '\n' ∉ v → '=' ∉ v → '(' ∉ v →
      v2 ≠ [] → '\n' ∉ v2 → '=' ∉ v2 → '(' ∉ v2 →
      pkgbuildSet (pkgbuildSet ⟨joinLines ls⟩ ⟨k⟩ ⟨v⟩) ⟨k2⟩ ⟨v2⟩ =
        pkgbuildSet (pkgbuildSet ⟨joinLines ls⟩ ⟨k2⟩ ⟨v2⟩) ⟨k⟩ ⟨v⟩ ∧
      pkgbuildSet (pkgbuildSet ⟨joinLines ls⟩ ⟨k⟩ ⟨v⟩) ⟨k2⟩ ⟨v2⟩ =
        ⟨joinLines (ls.map fun l => setLinePF k2 v2 (setLinePF k v l))⟩ ∧
      ∀ l ∈ ls, lineKeyPF l ≠ some k → lineKeyPF l ≠ some k2 →
        setLinePF k2 v2 (setLinePF k v l) = l) ∧
    (∀ (text k v : String), k.toList ∉ scanKeys text → pkgbuildSet text k v = text) := by
  constructor
  · intro ls k k2 v v2 hls hkk hv1 hvn hve hvp hw1 hwn hwe hwp
    have hone : ∀ (kx vx : List Char), pkgbuildSet ⟨joinLines ls⟩ ⟨kx⟩ ⟨vx⟩ =
        ⟨joinLines (ls.map (setLinePF kx vx))⟩ := by
      intro kx vx
      unfold pkgbuildSet
      show (⟨applySetAux kx vx (joinLines ls).length (joinLines ls)⟩ : String) = _
      rw [scan_join kx vx ls hls]
    have hpf1 : ∀ l ∈ ls.map (setLinePF k v), '\n' ∉ l ∧ '(' ∉ l := by
      intro l hl
      obtain ⟨l0, hl0, rfl⟩ := List.mem_map.mp hl
      obtain ⟨hn, hp⟩ := hls l0 hl0
      exact setLinePF_pf hn hp hvn hvp
    have hpf2 : ∀ l ∈ ls.map (setLinePF k2 v2), '\n' ∉ l ∧ '(' ∉ l := by
      intro l hl
      obtain ⟨l0, hl0, rfl⟩ := List.mem_map.mp hl
      obtain ⟨hn, hp⟩ := hls l0 hl0
      exact setLinePF_pf hn hp hwn hwp
    have htwo : pkgbuildSet (pkgbuildSet ⟨joinLines ls⟩ ⟨k⟩ ⟨v⟩) ⟨k2⟩ ⟨v2⟩ =
        ⟨joinLines (ls.map fun l => setLinePF k2 v2 (setLinePF k v l))⟩ := by
      rw [hone k v]
      unfold pkgbuildSet
      show (⟨applySetAux k2 v2 (joinLines (ls.map (setLinePF k v))).length
        (joinLines (ls.map (setLinePF k v)))⟩ : String) = _
      rw [scan_join k2 v2 (ls.map (setLinePF k v)) hpf1, List.map_map]
      rfl
    have htwo2 : pkgbuildSet (pkgbuildSet ⟨joinLines ls⟩ ⟨k2⟩ ⟨v2⟩) ⟨k⟩ ⟨v⟩ =
        ⟨joinLines (ls.map fun l => setLinePF k v (setLinePF k2 v2 l))⟩ := by
      rw [hone k2 v2]
      unfold pkgbuildSet
      show (⟨applySetAux k v (joinLines (ls.map (setLinePF k2 v2))).length
        (joinLines (ls.map (setLinePF k2 v2)))⟩ : String) = _
      rw [scan_join k v (ls.map (setLinePF k2 v2)) hpf2, List.map_map]
      rfl
    refine ⟨?_, htwo, ?_⟩
    · rw [htwo, htwo2]
      refine congrArg String.mk (congrArg joinLines (List.map_congr_left ?_))
      intro l _
      exact (setLinePF_comm hkk hv1 hve hw1 hwe l).symm
    · intro l _ h1 h2
      rw [setLinePF_id h1, setLinePF_id h2]
  · intro text k v hmem
    unfold pkgbuildSet
    rw [applySetAux_of_key_not_mem k.toList v.toList text.toList.length text.toList hmem]
    rfl

/-- Witness for the amended C8 on a concrete two-line recipe and for the
no-op of an absent key. -/
theorem C8_set_commutes_witness :
    pkgbuildSet (pkgbuildSet ⟨joinLines [['a', '=', '1'], ['b', '=', '2']]⟩
        ⟨['a']⟩ ⟨['x']⟩) ⟨['b']⟩ ⟨['y']⟩ =
      pkgbuildSet (pkgbuildSet ⟨joinLines [['a', '=', '1'], ['b', '=', '2']]⟩
        ⟨['b']⟩ ⟨['y']⟩) ⟨['a']⟩ ⟨['x']⟩ ∧
    pkgbuildSet "x=1" "q" "v" = "x=1" :=
  ⟨(C8_set_commutes.1 [['a', '=', '1'], ['b', '=', '2']] ['a'] ['b'] ['x'] ['y']
      (by decide) (by decide) (by decide) (by decide) (by decide) (by decide)
      (by decide) (by decide) (by decide) (by decide)).1,
    C8_set_commutes.2 "x=1" "q" "v" (by decide)⟩

/-- C8 counterexample: in `a=1\nb=2` the keys `a` and `b` are each recognized
exactly once, yet `set` with the newline-containing value `x\nb=y` fails to
commute with `set b z`; values containing `=` or `(`, and the empty value,
break commutativity the same way, because the substituted value is re-parsed
by the later `set`. -/
theorem C8_counterexample :
    (scanKeys "a=1\nb=2" = [['a'], ['b']] ∧
      pkgbuildSet (pkgbuildSet "a=1\nb=2" "a" "x\nb=y") "b" "z" ≠
        pkgbuildSet (pkgbuildSet "a=1\nb=2" "b" "z") "a" "x\nb=y") ∧
    pkgbuildSet (pkgbuildSet "a=1\na=b=x" "a" "b=c") "a=b" "z" ≠
      pkgbuildSet (pkgbuildSet "a=1\na=b=x" "a=b" "z") "a" "b=c" ∧
    pkgbuildSet (pkgbuildSet "k=old\nq=w)" "k" "(x") "q" "z" ≠
      pkgbuildSet (pkgbuildSet "k=old\nq=w)" "q" "z") "k" "(x" ∧
    pkgbuildSet (pkgbuildSet "a=b=c\na=x" "a=b" "") "a" "z" ≠
      pkgbuildSet (pkgbuildSet "a=b=c\na=x" "a" "z") "a=b" "" :=
  ⟨⟨by decide, by decide⟩, by decide, by decide, by decide⟩

/-! ## Claim C3 -/

theorem replicate_nil_eq_map {α β : Type} :
    ∀ l : List α, List.replicate l.length ([] : List β) = l.map fun _ => [] := by
  intro l
  induction l with
  | nil => rfl
  | cons a t ih =>
    show List.replicate (t.length + 1) [] = [] :: t.map fun _ => []
    rw [List.replicate_succ, ih]

/-- C3: on a clean run the checksum matrix handed to the rewriting loop has
exactly one row per requested algorithm, in `Metadata.hashes` order; the
`j`-th entry of each row is the digest of the `j`-th source (in
`Metadata.sources` order) under that row's algorithm, hex-encoded; every
entry is a string of lowercase hexadecimal digits. -/
theorem C3_checksum_matrix (hashFn : String → List Nat → List Nat)
    (o : RunOracle) (fetch : Nat → SourceOracle) (nv t : String)
    (co : ChildOut) (md : Metadata) (body : Nat → List Nat)
    (hr : o.recipeText = .ok t) (htf : o.tempFile = .ok ())
    (hs : o.spawn = .ok ()) (hw : o.stdinWrite = .ok ())
    (hwr : o.waitResult = .ok co) (hm : co.stdoutMeta = some md)
    (hok : ∀ a ∈ md.hashes, a ∈ knownAlgos)
    (hclean : ∀ j, j < md.sources.length →
      (fetch j).http = .ok () ∧ (fetch j).create = .ok () ∧
      bodyBytes (fetch j).events = some (body j)) :
    ∃ M : List (List String),
      M = (md.hashes.map fun a => (List.range md.sources.length).map fun j =>
        hexEncode (hashFn a (body j))) ∧
      (runModel hashFn o fetch nv).1 =
        .success (applySums (pkgbuildSet t "pkgver" nv) md.hashes M) ∧
      M.length = md.hashes.length ∧
      (∀ row ∈ M, row.length = md.sources.length) ∧
      (∀ row ∈ M, ∀ d ∈ row, ∀ c ∈ d.data, c ∈ hexDigits) := by
  have hbd := buildDigests_ok hok
  have hrs := runSources_clean hashFn md.hashes fetch body md.sources 0 (fun _ => [])
    (fun j hj => by simpa using hclean j hj)
  simp only [Nat.zero_add, List.nil_append] at hrs
  refine ⟨_, rfl, ?_, by simp, ?_, ?_⟩
  · set_option maxRecDepth 4000 in
    simp only [runModel, extractRun, hr, htf, hs, hw, hwr, hm, hbd]
    rw [replicate_nil_eq_map md.hashes, hrs]
  · intro row hrow
    obtain ⟨a, -, rfl⟩ := List.mem_map.mp hrow
    simp
  · intro row hrow d hd c hc
    obtain ⟨a, -, rfl⟩ := List.mem_map.mp hrow
    obtain ⟨j, -, rfl⟩ := List.mem_map.mp hd
    exact hexEncode_lower _ c hc

/-- Witness for C3 at two sources and two algorithms. -/
theorem C3_checksum_matrix_witness :
    ∃ M : List (List String),
      M = (mdTwoByTwo.hashes.map fun a => (List.range mdTwoByTwo.sources.length).map fun j =>
        hexEncode (idHash a (bodyTwo j))) ∧
      (runModel idHash (oracleFor mdTwoByTwo) fetchTwo "2.0").1 =
        .success (applySums (pkgbuildSet "pkgver=1.0\n" "pkgver" "2.0")
          mdTwoByTwo.hashes M) ∧
      M.length = mdTwoByTwo.hashes.length ∧
      (∀ row ∈ M, row.length = mdTwoByTwo.sources.length) ∧
      (∀ row ∈ M, ∀ d ∈ row, ∀ c ∈ d.data, c ∈ hexDigits) :=
  C3_checksum_matrix idHash (oracleFor mdTwoByTwo) fetchTwo "2.0" "pkgver=1.0\n"
    ⟨true, some mdTwoByTwo⟩ mdTwoByTwo bodyTwo rfl rfl rfl rfl rfl rfl
    (by decide)
    (by
      intro j hj
      have hj2 : j < 2 := by simpa [mdTwoByTwo] using hj
      interval_cases j <;> exact ⟨rfl, rfl, rfl⟩)

/-- Witness for C10 with two recognized algorithms and no sources. -/
theorem C10_empty_sources_witness :
    (runModel idHash (oracleFor mdNoSources) fetchNone "2.0").1 =
      .success (mdNoSources.hashes.foldl
        (fun tx a => pkgbuildSet tx (a ++ "sums") "('')")
        (pkgbuildSet "pkgver=1.0\n" "pkgver" "2.0")) :=
  C10_empty_sources idHash (oracleFor mdNoSources) fetchNone "2.0" "pkgver=1.0\n"
    ⟨true, some mdNoSources⟩ mdNoSources rfl rfl rfl rfl rfl rfl rfl (by decide)

end Pkgbump
